import Mathlib

set_option maxRecDepth 100000

/-!
Verification of the document-section synchronization engine of the
`github-figma-action` repository.

The engine's core (`figma-sync` main script plus `util.js`, `regex.js`,
`figma_api.js`) is embedded shallowly over `List Char`:

* JavaScript string primitives (`indexOf`, `substring`, `replace` with a
  string pattern, including the `$`-substitution patterns of the
  replacement text) are modelled by executable Lean functions with the
  ECMAScript semantics.
* Each regular expression of `regex.js` is modelled by a dedicated scanner
  with the semantics of the ECMAScript regex engine on that particular
  pattern (leftmost match, greedy quantifiers with the backtracking
  behaviour each concrete pattern actually allows).
* The external collaborators (Figma version lookup, preview-image lookup,
  the process clock) are parameters collected in a `FigmaEnv`; a `none`
  result models a thrown/failed external call.

Definitions whose name matches a function of the source files are direct
translations of those functions.
-/

/-! ## Characters and JS character classes -/

/-- The set matched by `\s` in an ECMAScript regular expression
(WhiteSpace plus LineTerminator). -/
def isJsWhitespace (c : Char) : Bool :=
  c = ' ' || c = '\t' || c = '\n' || c = '\r' ||
  c.val = 11 || c.val = 12 ||
  c.val = 0xa0 || c.val = 0x1680 ||
  (0x2000 ≤ c.val && c.val ≤ 0x200a) ||
  c.val = 0x2028 || c.val = 0x2029 || c.val = 0x202f ||
  c.val = 0x205f || c.val = 0x3000 || c.val = 0xfeff

/-- ASCII lower-casing; on the ASCII pattern `## design specs` this is the
case canonicalization performed by a case-insensitive (`i`-flag,
non-unicode) ECMAScript regex: non-ASCII characters never canonicalize to
ASCII ones. -/
def asciiLower (c : Char) : Char :=
  if 'A' ≤ c && c ≤ 'Z' then Char.ofNat (c.toNat + 32) else c

/-- The set matched by `\d`. -/
def isAsciiDigit (c : Char) : Bool :=
  '0' ≤ c && c ≤ '9'

/-- Decimal digits of a natural number, as characters. -/
def natChars (n : Nat) : List Char :=
  Nat.toDigits 10 n

/-! ## JS string primitives -/

/-- First index at which `pat` occurs as a contiguous sublist of `s`. -/
def findSub (pat : List Char) : List Char → Option Nat
  | [] => if pat.isEmpty then some 0 else none
  | c :: rest =>
    if pat.isPrefixOf (c :: rest) then some 0
    else (findSub pat rest).map (· + 1)

/-- Whether `pat` occurs as a contiguous sublist of `s`. -/
def containsSubB (pat : List Char) : List Char → Bool
  | [] => pat.isEmpty
  | c :: rest => pat.isPrefixOf (c :: rest) || containsSubB pat rest

/-- `String.prototype.indexOf` with a non-empty search string: first
occurrence index, `-1` when absent. -/
def jsIndexOf (s pat : List Char) : Int :=
  match findSub pat s with
  | some i => (i : Int)
  | none => -1

/-- `String.prototype.substring(a, b)`: clamp both arguments to
`[0, length]`, swap them when out of order, then slice. -/
def jsSubstring (s : List Char) (a b : Int) : List Char :=
  let len : Int := (s.length : Int)
  let fs := min (max a 0) len
  let fe := min (max b 0) len
  let lo := min fs fe
  let hi := max fs fe
  (s.take hi.toNat).drop lo.toNat

/-- `String.prototype.substring(a)` (one-argument form). -/
def jsSubstringFrom (s : List Char) (a : Int) : List Char :=
  jsSubstring s a (s.length : Int)

/-- ECMAScript `GetSubstitution` for a string search pattern (there are no
capture groups, so `$n` stays literal): expansion of `$$`, `$&`,
`` $` `` and `$'` in the replacement text. -/
def getSubstitution (matched before after : List Char) : List Char → List Char
  | [] => []
  | [c] => [c]
  | c :: d :: r =>
    if c = '$' then
      if d = '$' then '$' :: getSubstitution matched before after r
      else if d = '&' then matched ++ getSubstitution matched before after r
      else if d.val = 96 then before ++ getSubstitution matched before after r
      else if d.val = 39 then after ++ getSubstitution matched before after r
      else c :: getSubstitution matched before after (d :: r)
    else c :: getSubstitution matched before after (d :: r)

/-- `String.prototype.replace` with a string pattern: replace the first
occurrence only, expanding `$`-patterns in the replacement. -/
def jsReplaceFirst (s pat repl : List Char) : List Char :=
  match findSub pat s with
  | none => s
  | some i =>
    let before := s.take i
    let after := s.drop (i + pat.length)
    before ++ getSubstitution pat before after repl ++ after

/-! ## Pattern literals (from `regex.js` / `util.js`) -/

/-- `DESIGN_SPECS_SECTION_REGEX` source, case-canonicalized:
`/## Design Specs/i`. -/
def designSpecsHeadingLower : List Char :=
  "## design specs".toList

/-- `NEXT_SECTION_REGEX` source: `/\n## /`. -/
def nextSectionPat : List Char :=
  "\n## ".toList

/-- Literal prefix of `FIGMA_URL_REGEX`. -/
def figmaUrlPrefix : List Char :=
  "https://www.figma.com/design/".toList

/-- Literal of `FILE_ID_REGEX` (`/\/design\/([^/]+)\//`). -/
def designSegPat : List Char :=
  "/design/".toList

/-- Literal of `NODE_ID_REGEX` (`/node-id=([^&\s)]+)/`). -/
def nodeIdPat : List Char :=
  "node-id=".toList

/-- Literal of `VERSION_ID_REGEX` (`/version-id=([^&\s)]+)/`). -/
def versionIdPat : List Char :=
  "version-id=".toList

/-- Literal of `DESIGN_SPEC_HEADER_REGEX` (`/### Design Spec \d+/g`). -/
def specHeaderPat : List Char :=
  "### Design Spec ".toList

/-- Character class `[^&\s)]`. -/
def nodeAllowed (c : Char) : Bool :=
  !(c = '&' || isJsWhitespace c || c = ')')

/-- Character class `[^\s)]`. -/
def runAllowed (c : Char) : Bool :=
  !(isJsWhitespace c || c = ')')

/-- Character class `[^?\s)]`. -/
def nameAllowed (c : Char) : Bool :=
  !(c = '?' || isJsWhitespace c || c = ')')

/-! ## `figma_api.js`: `parseFigmaUrl` -/

/-- Leftmost match of a regex of shape `lit([^X]+)` (a literal followed by
a greedy non-empty capture): at each position, the literal must match and
the greedy capture run after it must be non-empty, otherwise the engine
moves one position right. Returns the capture. -/
def scanCaptureAfter (pat : List Char) (allowed : Char → Bool) :
    List Char → Option (List Char)
  | [] => none
  | c :: rest =>
    if pat.isPrefixOf (c :: rest) then
      let cap := List.takeWhile allowed (List.drop pat.length (c :: rest))
      if cap.isEmpty then scanCaptureAfter pat allowed rest else some cap
    else scanCaptureAfter pat allowed rest

/-- Leftmost match of `/\/design\/([^/]+)\//`: literal, then a non-empty
greedy run of non-`/` characters, then `/`.  Because every character the
capture may take is a non-`/`, the only way the closing `/` can match is
right after the maximal run; no other backtracking exists. -/
def scanFileId : List Char → Option (List Char)
  | [] => none
  | c :: rest =>
    if designSegPat.isPrefixOf (c :: rest) then
      let after := List.drop designSegPat.length (c :: rest)
      let cap := List.takeWhile (fun x => !(x = '/')) after
      if cap.isEmpty then scanFileId rest
      else if (List.drop cap.length after).head? = some '/' then some cap
      else scanFileId rest
    else scanFileId rest

/-- Result of `parseFigmaUrl`. -/
structure ParsedFigmaUrl where
  fileId : List Char
  nodeId : List Char
  versionId : Option (List Char)
  deriving Repr, DecidableEq

/-- `figma_api.js` `parseFigmaUrl`: file id via `FILE_ID_REGEX`, node id
via `NODE_ID_REGEX` with its first `-` replaced by `:`, version id via
`VERSION_ID_REGEX` when present. -/
def parseFigmaUrl (url : List Char) : Option ParsedFigmaUrl :=
  match scanFileId url, scanCaptureAfter nodeIdPat nodeAllowed url with
  | some fid, some nid =>
    some { fileId := fid,
           nodeId := jsReplaceFirst nid ['-'] [':'],
           versionId := scanCaptureAfter versionIdPat nodeAllowed url }
  | _, _ => none

/-! ## `util.js` text builders -/

/-- `util.js` `createCleanFigmaUrl`. -/
def createCleanFigmaUrl (fileId nodeId versionId : List Char) : List Char :=
  let dashNodeId := jsReplaceFirst nodeId [':'] ['-']
  figmaUrlPrefix ++ fileId ++ "/?node-id=".toList ++ dashNodeId ++
    "&version-id=".toList ++ versionId ++ "&m=dev".toList

/-- `util.js` `convertNodeIdToColonFormat`. -/
def convertNodeIdToColonFormat (nodeId : List Char) : List Char :=
  jsReplaceFirst nodeId ['-'] [':']

/-- `util.js` `getDesignSpecsEndMarker`. -/
def getDesignSpecsEndMarker : List Char :=
  "<!-- END_DESIGN_SPECS - WILL NOT DETECT FIGMA LINKS BELOW THIS LINE -->".toList

/-- The opener shared by all sentinel comments. -/
def commentOpen : List Char :=
  "<!--".toList

/-- Head literal of the start protection sentinel. -/
def smHead : List Char :=
  "<!-- START_SPEC_".toList

/-- Tail literal of the start protection sentinel. -/
def smTail : List Char :=
  " - DO NOT EDIT CONTENT BELOW -->".toList

/-- Head literal of the end protection sentinel. -/
def emHead : List Char :=
  "<!-- END_SPEC_".toList

/-- Tail literal of the end protection sentinel. -/
def emTail : List Char :=
  " - DO NOT EDIT CONTENT ABOVE -->".toList

/-- A start protection sentinel with the given digit text. -/
def smOf (ds : List Char) : List Char :=
  smHead ++ ds ++ smTail

/-- An end protection sentinel with the given digit text. -/
def emOf (ds : List Char) : List Char :=
  emHead ++ ds ++ emTail

/-- Start protection sentinel of entry `n` (from `createDesignSpecSnippet`). -/
def startSpecMarker (n : Nat) : List Char :=
  smOf (natChars n)

/-- End protection sentinel of entry `n` (from `createDesignSpecSnippet`). -/
def endSpecMarker (n : Nat) : List Char :=
  emOf (natChars n)

/-- The anchor id `design-spec-<n>` built by the main script. -/
def designSpecIdFor (n : Nat) : List Char :=
  "design-spec-".toList ++ natChars n

/-- `util.js` `createDesignSpecSnippet`, byte-for-byte (the two garbled
UTF-8 ornaments of the source file are reproduced exactly). -/
def createDesignSpecSnippet (specNumber : Nat)
    (specId attachmentUrl cleanUrl versionId snapshotTimestamp
      expirationString : List Char) : List Char :=
  "\n".toList ++ startSpecMarker specNumber ++
  "\n\n<a id=\"".toList ++ specId ++
  "\"></a>\n\n<details>\n<summary><strong>ðŸŽ¨ Design Spec ".toList ++
  natChars specNumber ++
  "</strong> <a href=\"#".toList ++ specId ++
  "\">#</a></summary>\n\n<br>\n\n<kbd><img alt=\"Figma Design Preview\" src=\"".toList ++
  attachmentUrl ++
  "\" /></kbd>\n\n<details>\n<summary>ðŸ“‹ Spec Details</summary>\n\n**Design Link:** [View in Figma](".toList ++
  cleanUrl ++
  ") (Cmd+Click to open in new tab)\n\n**Version:** ".toList ++
  versionId ++
  "\n\n**Snapshot Timestamp:** ".toList ++
  snapshotTimestamp ++
  "\n\n**Image Expires:** ".toList ++
  expirationString ++
  "\n\n**Description: <enter description here>**\n\n</details>\n\n</details>\n\n---\n\n".toList ++
  endSpecMarker specNumber ++
  "\n\n".toList

/-- `util.js` `createReferenceText`; the truthiness test
`isMarkdownLink && linkText` is false for a missing or empty label. -/
def createReferenceText (isMarkdownLink : Bool) (linkText : Option (List Char))
    (specNumber : Nat) (specId : List Char) : List Char :=
  match isMarkdownLink, linkText with
  | true, some l =>
    if l.isEmpty then
      ("[Refer to Design Spec ").toList ++ natChars specNumber ++
        " below](#".toList ++ specId ++ ")".toList
    else
      l ++ " ([Refer to Design Spec ".toList ++ natChars specNumber ++
        " below](#".toList ++ specId ++ "))".toList
  | _, _ =>
    ("[Refer to Design Spec ").toList ++ natChars specNumber ++
      " below](#".toList ++ specId ++ ")".toList

/-! ## Link extraction (`findFigmaLinks` and helpers of the main script) -/

/-- The link objects built by `util.js` `createLinkObject`. -/
structure FigmaLink where
  url : List Char
  fileId : List Char
  nodeId : List Char
  fullMatch : List Char
  isMarkdownLink : Bool
  linkText : Option (List Char)
  isInSpecsSection : Bool
  deriving Repr, DecidableEq

/-- Inner backtracking of `FIGMA_URL_REGEX`'s query part
`[^\s)]*node-id=([^&\s)]+)`: the greedy `[^\s)]*` backtracks to the LAST
occurrence of `node-id=` (inside the maximal `[^\s)]*` run) that is
followed by a non-empty `[^&\s)]+` capture. -/
def lastNodeIdIn : List Char → Option (List Char)
  | [] => none
  | c :: rest =>
    match lastNodeIdIn rest with
    | some cap => some cap
    | none =>
      if nodeIdPat.isPrefixOf (c :: rest) then
        let cap := List.takeWhile nodeAllowed (List.drop nodeIdPat.length (c :: rest))
        if cap.isEmpty then none else some cap
      else none

/-- Anchored match of `FIGMA_URL_REGEX`
(`https://www\.figma\.com/design/([^/]+)/[^?\s)]*\?[^\s)]*node-id=([^&\s)]+)[^\s)]*`)
at the head of `t`.  All character classes of the query part exclude
whitespace and `)`, so every successful match consumes exactly the literal
head, the file id segment, the name segment, `?`, and then the whole
maximal `[^\s)]*` run; the match exists iff that run contains a
`node-id=` with a non-empty value.  Returns the consumed length. -/
def figmaUrlMatchAt (t : List Char) : Option Nat :=
  if figmaUrlPrefix.isPrefixOf t then
    let r1 := List.drop figmaUrlPrefix.length t
    let fid := List.takeWhile (fun x => !(x = '/')) r1
    if fid.isEmpty then none
    else
      match List.drop fid.length r1 with
      | '/' :: r2 =>
        let nm := List.takeWhile nameAllowed r2
        match List.drop nm.length r2 with
        | '?' :: r3 =>
          let run := List.takeWhile runAllowed r3
          match lastNodeIdIn run with
          | some _ =>
            some (figmaUrlPrefix.length + fid.length + 1 + nm.length + 1 + run.length)
          | none => none
        | _ => none
      | _ => none
  else none

/-- Anchored match of `MARKDOWN_FIGMA_LINK_REGEX`
(`\[([^\]]+)\]\((FIGMA_URL_PATTERN)\)`) at the head of `t`: label, inner
URL (capture 2) and total consumed length.  The closing `)` can only
follow the full URL match because every URL character class excludes
`)`. -/
def mdMatchAt (t : List Char) : Option (List Char × List Char × Nat) :=
  match t with
  | '[' :: r1 =>
    let label := List.takeWhile (fun x => !(x = ']')) r1
    if label.isEmpty then none
    else
      match List.drop label.length r1 with
      | ']' :: '(' :: r2 =>
        match figmaUrlMatchAt r2 with
        | some ulen =>
          match List.drop ulen r2 with
          | ')' :: _ => some (label, List.take ulen r2, 1 + label.length + 2 + ulen + 1)
          | _ => none
        | none => none
      | _ => none
  | _ => none

/-- `g`-flag scan of `MARKDOWN_FIGMA_LINK_REGEX` over `content`, pushing a
link object for every match whose URL `parseFigmaUrl` accepts (the scan
advances past a match even when `parseFigmaUrl` rejects it). -/
def mdScan (isIn : Bool) : Nat → List Char → List FigmaLink
  | 0, _ => []
  | _, [] => []
  | fuel + 1, c :: rest =>
    match mdMatchAt (c :: rest) with
    | some (label, url, len) =>
      let tail := List.drop len (c :: rest)
      match parseFigmaUrl url with
      | some parsed =>
        { url := url, fileId := parsed.fileId, nodeId := parsed.nodeId,
          fullMatch := List.take len (c :: rest), isMarkdownLink := true,
          linkText := some label, isInSpecsSection := isIn } :: mdScan isIn fuel tail
      | none => mdScan isIn fuel tail
    | none => mdScan isIn fuel rest

/-- `g`-flag scan of `FIGMA_URL_REGEX` over `content`, appending to the
accumulated link list; a match equal (as raw URL) to the `url` of any link
already accumulated is skipped (`alreadyProcessed`). -/
def saScan (isIn : Bool) : Nat → List Char → List FigmaLink → List FigmaLink
  | 0, _, acc => acc
  | _, [], acc => acc
  | fuel + 1, c :: rest, acc =>
    match figmaUrlMatchAt (c :: rest) with
    | some len =>
      let fullUrl := List.take len (c :: rest)
      let tail := List.drop len (c :: rest)
      if acc.any (fun l => l.url = fullUrl) then saScan isIn fuel tail acc
      else
        match parseFigmaUrl fullUrl with
        | some parsed =>
          saScan isIn fuel tail
            (acc ++ [{ url := fullUrl, fileId := parsed.fileId,
                       nodeId := parsed.nodeId, fullMatch := fullUrl,
                       isMarkdownLink := false, linkText := none,
                       isInSpecsSection := isIn }])
        | none => saScan isIn fuel tail acc
    | none => saScan isIn fuel rest acc

/-- Main-script `findFigmaLinksInContent`: markdown links first, then
standalone URLs with the duplicate check against everything found so far
(including links of a previously scanned region, which share the array). -/
def findFigmaLinksInContent (content : List Char) (acc : List FigmaLink)
    (isIn : Bool) : List FigmaLink :=
  saScan isIn content.length content (acc ++ mdScan isIn content.length content)

/-! ## Section analysis (`analyzeDesignSpecsSection` and `util.js` helpers) -/

/-- `prBody.search(DESIGN_SPECS_SECTION_REGEX)` / `.test(...)`: first
index at which the case-canonicalized document matches
`## design specs`. -/
def designSpecsSearch (s : List Char) : Option Nat :=
  findSub designSpecsHeadingLower (s.map asciiLower)

/-- `util.js` `extractSectionContent`. -/
def extractSectionContent (content : List Char) (startIndex endIndex : Int) :
    List Char :=
  if endIndex > startIndex then jsSubstring content startIndex endIndex
  else
    let sect := jsSubstringFrom content startIndex
    match findSub nextSectionPat sect with
    | some i => jsSubstring sect 0 (i : Int)
    | none => sect

/-- `g`-flag match count of `DESIGN_SPEC_HEADER_REGEX`
(`/### Design Spec \d+/g`). -/
def countSpecHeaders : Nat → List Char → Nat
  | 0, _ => 0
  | _, [] => 0
  | fuel + 1, c :: rest =>
    if specHeaderPat.isPrefixOf (c :: rest) then
      let ds := List.takeWhile isAsciiDigit (List.drop specHeaderPat.length (c :: rest))
      if ds.isEmpty then countSpecHeaders fuel rest
      else 1 + countSpecHeaders fuel (List.drop (specHeaderPat.length + ds.length) (c :: rest))
    else countSpecHeaders fuel rest

/-- Match of the protection start sentinel pattern
`<!-- START_SPEC_\d+ - DO NOT EDIT CONTENT BELOW -->` at the head of `t`:
the matched digits and the whole match length (`\d+` is greedy, and a
shorter digit run can never rescue the following space literal). -/
def startMarkerParseAt (t : List Char) : Option (List Char × Nat) :=
  if smHead.isPrefixOf t then
    let ds := List.takeWhile isAsciiDigit (List.drop smHead.length t)
    if ds.isEmpty then none
    else if smTail.isPrefixOf (List.drop (smHead.length + ds.length) t) then
      some (ds, smHead.length + ds.length + smTail.length)
    else none
  else none

/-- Match of the protection end sentinel pattern
`<!-- END_SPEC_\d+ - DO NOT EDIT CONTENT ABOVE -->` at the head of `t`:
the matched digits and the whole match length. -/
def endMarkerParseAt (t : List Char) : Option (List Char × Nat) :=
  if emHead.isPrefixOf t then
    let ds := List.takeWhile isAsciiDigit (List.drop emHead.length t)
    if ds.isEmpty then none
    else if emTail.isPrefixOf (List.drop (emHead.length + ds.length) t) then
      some (ds, emHead.length + ds.length + emTail.length)
    else none
  else none

/-- First position at which the end sentinel pattern matches (the target
of the lazy `[\s\S]*?`): offset, digits, match length. -/
def findEndMarkerParseFrom : List Char → Option (Nat × List Char × Nat)
  | [] => none
  | c :: rest =>
    match endMarkerParseAt (c :: rest) with
    | some (ds, len) => some (0, ds, len)
    | none =>
      match findEndMarkerParseFrom rest with
      | some (off, ds, len) => some (off + 1, ds, len)
      | none => none

/-- Length of a whole protected-span match of
`extractUnprotectedSpecsContent`'s regex when it matches at the head of
`t`: a start sentinel, then (lazily) up to the earliest end sentinel;
the two `\d+` groups are unrelated. -/
def protSpanLenAt (t : List Char) : Option Nat :=
  match startMarkerParseAt t with
  | none => none
  | some (_, sl) =>
    match findEndMarkerParseFrom (List.drop sl t) with
    | some (off, _, el) => some (sl + off + el)
    | none => none

/-- Fuel-driven worker of `extractUnprotectedSpecsContent`. -/
def euGo : Nat → List Char → List Char
  | 0, s => s
  | _ + 1, [] => []
  | fuel + 1, c :: rest =>
    match protSpanLenAt (c :: rest) with
    | some n => euGo fuel (List.drop n (c :: rest))
    | none => c :: euGo fuel rest

/-- `util.js` `extractUnprotectedSpecsContent`: global replacement of
`<!-- START_SPEC_\d+ - ... -->[\s\S]*?<!-- END_SPEC_\d+ - ... -->`
by the empty string. -/
def extractUnprotectedSpecsContent (s : List Char) : List Char :=
  euGo s.length s

/-- The analysis record returned by `analyzeDesignSpecsSection`
(JS `-1` index sentinels kept as `Int`). -/
structure SpecsAnalysis where
  hasSpecsSection : Bool
  specsSectionIndex : Int
  specsEndIndex : Int
  existingSpecCount : Nat
  deriving Repr, DecidableEq

/-- Main-script `analyzeDesignSpecsSection`. -/
def analyzeDesignSpecsSection (prBody : List Char) : SpecsAnalysis :=
  match designSpecsSearch prBody with
  | none =>
    { hasSpecsSection := false, specsSectionIndex := -1,
      specsEndIndex := -1, existingSpecCount := 0 }
  | some idx =>
    let eIdx := jsIndexOf prBody getDesignSpecsEndMarker
    let sect := extractSectionContent prBody (idx : Int) eIdx
    { hasSpecsSection := true, specsSectionIndex := (idx : Int),
      specsEndIndex := eIdx,
      existingSpecCount := countSpecHeaders sect.length sect }

/-- Main-script `findFigmaLinks`: the region above the section, then the
unprotected part of the section. -/
def findFigmaLinks (prBody : List Char) (specsAnalysis : SpecsAnalysis) :
    List FigmaLink :=
  let contentAboveSpecs :=
    if specsAnalysis.hasSpecsSection then
      jsSubstring prBody 0 specsAnalysis.specsSectionIndex
    else prBody
  let acc1 := findFigmaLinksInContent contentAboveSpecs [] false
  if specsAnalysis.hasSpecsSection then
    let sect := extractSectionContent prBody specsAnalysis.specsSectionIndex
      specsAnalysis.specsEndIndex
    findFigmaLinksInContent (extractUnprotectedSpecsContent sect) acc1 true
  else acc1

/-! ## External collaborators and link processing -/

/-- A Figma version record (`{id, created_at}`). -/
structure FigmaVersion where
  id : List Char
  created_at : List Char
  deriving Repr, DecidableEq

/-- The external collaborators consumed by one run: `fetchLatestVersion`,
`fetchNodeImageUrl` (a `none` result models a failed call / thrown
error), the ISO timestamp `new Date().toISOString()` used by
`createVersionFromId`, and the result of `calculateImageExpirationDate`. -/
structure FigmaEnv where
  latestVersion : List Char → Option FigmaVersion
  nodeImageUrl : List Char → List Char → Option (List Char)
  nowIso : List Char
  imageExpiration : List Char

/-- Main-script `processFigmaLink` with the external calls supplied by
`env`: `none` models the function throwing (caught per link by `main`'s
loop).  Returns `(specSnippet, referenceText)`. -/
def resolveFigmaLink (env : FigmaEnv) (link : FigmaLink) (specNumber : Nat) :
    Option (List Char × List Char) :=
  match parseFigmaUrl link.url with
  | none => none
  | some parsed =>
    let version? : Option FigmaVersion :=
      match parsed.versionId with
      | some v => some { id := v, created_at := env.nowIso }
      | none => env.latestVersion link.fileId
    match version? with
    | none => none
    | some version =>
      match env.nodeImageUrl link.fileId link.nodeId with
      | none => none
      | some imageUrl =>
        let specId := designSpecIdFor specNumber
        let cleanUrl := createCleanFigmaUrl link.fileId link.nodeId version.id
        let specSnippet := createDesignSpecSnippet specNumber specId imageUrl
          cleanUrl version.id version.created_at env.imageExpiration
        let referenceText :=
          if link.isInSpecsSection then []
          else createReferenceText link.isMarkdownLink link.linkText specNumber specId
        some (specSnippet, referenceText)

/-- The per-link loop of `main`: each element carries its loop index `i`
and receives number `existingSpecCount + i + 1`; a failing link is skipped
(logged in the source); a within-section link's raw text is replaced by
the empty string, any other by its reference text. -/
def processIndexed (env : FigmaEnv) (count : Nat) :
    List Char → List Char → List (Nat × FigmaLink) → List Char × List Char
  | body, specs, [] => (body, specs)
  | body, specs, (i, l) :: rest =>
    match resolveFigmaLink env l (count + i + 1) with
    | none => processIndexed env count body specs rest
    | some (snip, ref) =>
      processIndexed env count
        (jsReplaceFirst body l.fullMatch (if l.isInSpecsSection then [] else ref))
        (specs ++ snip) rest

/-- Main-script `updateDesignSpecsSection`. -/
def updateDesignSpecsSection (body specsContent : List Char)
    (specsAnalysis : SpecsAnalysis) : List Char :=
  let endMarker := getDesignSpecsEndMarker
  if specsAnalysis.hasSpecsSection then
    if specsAnalysis.specsEndIndex > specsAnalysis.specsSectionIndex then
      jsSubstring body 0 specsAnalysis.specsEndIndex ++ specsContent ++
        jsSubstringFrom body specsAnalysis.specsEndIndex
    else
      let afterSpecsSection := jsSubstringFrom body specsAnalysis.specsSectionIndex
      match findSub nextSectionPat afterSpecsSection with
      | some relIdx =>
        let nextSectionIndex : Int := specsAnalysis.specsSectionIndex + (relIdx : Int)
        let withEndMarker :=
          jsSubstring body 0 nextSectionIndex ++ '\n' :: endMarker ++
            jsSubstringFrom body nextSectionIndex
        let newEndMarkerIndex := jsIndexOf withEndMarker endMarker
        jsSubstring withEndMarker 0 newEndMarkerIndex ++ specsContent ++
          jsSubstringFrom withEndMarker newEndMarkerIndex
      | none => body ++ specsContent ++ '\n' :: endMarker
  else
    body ++ "\n## Design Specs\n".toList ++ specsContent ++ '\n' :: getDesignSpecsEndMarker

/-- One whole engine run of `main` on a fetched document: analysis, link
discovery, per-link processing, section update.  Returns the final
document; the store write happens exactly when the result differs from
the input (`updatedBody !== prBody`). -/
def runMain (env : FigmaEnv) (prBody : List Char) : List Char :=
  let specsAnalysis := analyzeDesignSpecsSection prBody
  let figmaLinks := findFigmaLinks prBody specsAnalysis
  if figmaLinks.isEmpty then prBody
  else
    let indexed := (List.range figmaLinks.length).zip figmaLinks
    let res := processIndexed env specsAnalysis.existingSpecCount prBody [] indexed
    if res.2.isEmpty then res.1
    else updateDesignSpecsSection res.1 res.2 specsAnalysis

/-- The sequence of entry numbers `main` hands to `processFigmaLink` in
one run (loop index order). -/
def specNumbersFor (prBody : List Char) : List Nat :=
  let specsAnalysis := analyzeDesignSpecsSection prBody
  let figmaLinks := findFigmaLinks prBody specsAnalysis
  (List.range figmaLinks.length).map
    (fun i => specsAnalysis.existingSpecCount + i + 1)

/-! ## Specification-side definitions

These definitions follow the wording of the specification (not the code);
they exist to be compared against the behaviour of the translated source
functions. -/

/-- Modelled from the spec: "the count of complete protected-entry pairs"
-- a start sentinel whose nearest following end sentinel carries the same
entry number counts as one complete pair; anything else counts nothing. -/
def specCompletePairCount : Nat → List Char → Nat
  | 0, _ => 0
  | _ + 1, [] => 0
  | fuel + 1, c :: rest =>
    match startMarkerParseAt (c :: rest) with
    | some (da, sl) =>
      match findEndMarkerParseFrom (List.drop sl (c :: rest)) with
      | some (off, db, el) =>
        if da = db then
          1 + specCompletePairCount fuel (List.drop (sl + off + el) (c :: rest))
        else specCompletePairCount fuel rest
      | none => specCompletePairCount fuel rest
    | none => specCompletePairCount fuel rest

/-- The text of the managed section as the analysis of a run delimits it. -/
def sectionContentOf (doc : List Char) : List Char :=
  let a := analyzeDesignSpecsSection doc
  extractSectionContent doc a.specsSectionIndex a.specsEndIndex

/-- Whether the case-insensitive heading pattern `## Design Specs` matches
at offset `j` of `doc`. -/
def designSpecsMatchAtB (doc : List Char) (j : Nat) : Bool :=
  designSpecsHeadingLower.isPrefixOf (List.drop j (doc.map asciiLower))

/-- Number of offsets of `doc` at which the managed-section heading
pattern matches. -/
def countHeadingMatchPositions (doc : List Char) : Nat :=
  ((List.range doc.length).filter (fun j => designSpecsMatchAtB doc j)).length

/-- Modelled from the spec: the four-way insertion policy exactly as the
specification words it.  "The section end-sentinel exists after the
heading" is read as: some occurrence of the sentinel lies after the
heading, and insertion happens immediately before the first such
occurrence.  The synthesized-sentinel case reproduces the source's
whitespace (`\n`, entries, sentinel) so that only the insertion *position*
is at stake. -/
def fourWayInsertSpec (body specs : List Char) : List Char :=
  let em := getDesignSpecsEndMarker
  match designSpecsSearch body with
  | none => body ++ "\n## Design Specs\n".toList ++ specs ++ '\n' :: em
  | some h =>
    match findSub em (List.drop h body) with
    | some e => List.take (h + e) body ++ specs ++ List.drop (h + e) body
    | none =>
      match findSub nextSectionPat (List.drop h body) with
      | some k =>
        List.take (h + k) body ++ '\n' :: (specs ++ em) ++ List.drop (h + k) body
      | none => body ++ specs ++ '\n' :: em

/-- The amended four-way insertion policy (what the source does): all
branching is keyed on the *first* sentinel occurrence in the whole
document.  If it lies strictly after the heading match, entries are
inserted immediately before it.  Otherwise (no sentinel anywhere, or the
first occurrence precedes the heading): when a `\n## ` occurs after the
heading, a sentinel is synthesized immediately before it and the entries
are inserted at the first sentinel occurrence of the *augmented* document
(the synthesized one only when no occurrence existed before the heading);
with no following heading, entries then a sentinel are appended; with no
section, a heading, the entries and a sentinel are appended. -/
def amendedFourWayInsert (body specs : List Char) : List Char :=
  let em := getDesignSpecsEndMarker
  match designSpecsSearch body with
  | none => body ++ "\n## Design Specs\n".toList ++ specs ++ '\n' :: em
  | some h =>
    match findSub em body with
    | some e =>
      if h < e then List.take e body ++ specs ++ List.drop e body
      else
        match findSub nextSectionPat (List.drop h body) with
        | some k =>
          let withEm := List.take (h + k) body ++ '\n' :: em ++ List.drop (h + k) body
          List.take e withEm ++ specs ++ List.drop e withEm
        | none => body ++ specs ++ '\n' :: em
    | none =>
      match findSub nextSectionPat (List.drop h body) with
      | some k =>
        List.take (h + k) body ++ '\n' :: (specs ++ em) ++ List.drop (h + k) body
      | none => body ++ specs ++ '\n' :: em

/-- Whether `s` contains any end-sentinel match. -/
def hasEndMarkerB (s : List Char) : Bool :=
  (findEndMarkerParseFrom s).isSome

/-- Whether `pat` provably mismatches `ys` inside their common range
(hence `pat` is a prefix of no extension `ys ++ rest`). -/
def mismatchWithin (pat ys : List Char) : Bool :=
  (List.range (min pat.length ys.length)).any
    (fun i => !(pat.getD i ' ' = ys.getD i ' '))

/-- Whether `pat` can start nowhere inside `xs`, whatever follows `xs`:
at every offset of `xs` a mismatch happens inside `xs` itself. -/
def noPrefixWithinB (pat xs : List Char) : Bool :=
  (List.range xs.length).all (fun j => mismatchWithin pat (xs.drop j))

/-! ## Concrete run data for the counterexamples -/

/-- A fixed preview-image URL for file `F`. -/
def ceImgF : List Char :=
  "https://img.example/f.png".toList

/-- A fixed preview-image URL for file `G`. -/
def ceImgG : List Char :=
  "https://img.example/g.png".toList

/-- A fixed version-lookup timestamp. -/
def ceVersionTime : List Char :=
  "2025-01-01T00:00:00Z".toList

/-- The external-collaborator table used by every concrete run: file `F`
has latest version `V1`; previews exist for node `1:2` of `F` and node
`7:8` of `G`; every other lookup fails. -/
def ceEnv : FigmaEnv where
  latestVersion := fun fid =>
    if fid = "F".toList then some { id := "V1".toList, created_at := ceVersionTime }
    else none
  nodeImageUrl := fun fid nid =>
    if fid = "F".toList && nid = "1:2".toList then some ceImgF
    else if fid = "G".toList && nid = "7:8".toList then some ceImgG
    else none
  nowIso := "2025-02-02T00:00:00Z".toList
  imageExpiration := "2025-03-04".toList

/-- A Figma URL for node `1-2` of file `F`. -/
def ceUrlF : List Char :=
  "https://www.figma.com/design/F/n?node-id=1-2".toList

/-- A Figma URL for node `7-8` of file `G`. -/
def ceUrlG : List Char :=
  "https://www.figma.com/design/G/n?node-id=7-8".toList

/-- A generated catalog entry for file `F`, exactly as a previous run with
`ceEnv`'s data would have produced it (entry number 1). -/
def ceSnippet1 : List Char :=
  createDesignSpecSnippet 1 (designSpecIdFor 1) ceImgF
    (createCleanFigmaUrl "F".toList "1:2".toList "V1".toList)
    "V1".toList ceVersionTime "2025-03-04".toList

/-- C1 counterexample document: the same Figma URL occurs twice. -/
def docC1 : List Char :=
  "A ".toList ++ ceUrlF ++ " B ".toList ++ ceUrlF

/-- Output of the first engine run on `docC1`. -/
def docC1run1 : List Char :=
  runMain ceEnv docC1

/-- C2 failing input: the managed section holds one complete generated
protected entry, and one new link (file `G`) sits above the section. -/
def docC2 : List Char :=
  "See ".toList ++ ceUrlG ++ "\n## Design Specs\n".toList ++ ceSnippet1 ++
    getDesignSpecsEndMarker

/-- C4 failing input: one complete protected entry plus one unprotected
stray link whose text equals the clean URL inside the protected entry. -/
def docC4 : List Char :=
  "## Design Specs\n".toList ++ ceSnippet1 ++ "stray: ".toList ++
    createCleanFigmaUrl "F".toList "1:2".toList "V1".toList ++ "\n".toList ++
    getDesignSpecsEndMarker

/-- C6 counterexample document: above the section the text `ceUrlF ++ "xyz"`
forms a longer URL match (whose node lookup fails); inside the section an
unprotected stray equals `ceUrlF`, whose first occurrence in the document
however lies above the section. -/
def docC6 : List Char :=
  "Intro ".toList ++ ceUrlF ++ "xyz\n## Design Specs\n".toList ++ ceUrlF ++
    "\n".toList ++ getDesignSpecsEndMarker

/-- C7 counterexample document: two headings match the managed-section
pattern (different case), and one link sits above the first. -/
def docC7 : List Char :=
  ceUrlF ++ "\n## Design Specs\nA\n## design specs\nB\n".toList

/-- C3 counterexample document: the sentinel occurs both before and after
the heading, and an unrelated heading follows. -/
def bodyC3 : List Char :=
  "A\n".toList ++ getDesignSpecsEndMarker ++ "\nB\n## Design Specs\nC\n".toList ++
    getDesignSpecsEndMarker ++ "\nD\n## Other\nE".toList

/-- C5 counterexample text: a start sentinel numbered 1 closed by an end
sentinel numbered 2. -/
def textC5 : List Char :=
  startSpecMarker 1 ++ "MID".toList ++ endSpecMarker 2

/-! ## Theorems -/

/-- Claim C10 (counterexample): with `fileId = "a"`,
`nodeId = "1:bversion-id=Z"` (prefix `1` has no hyphen or colon, suffix
`bversion-id=Z` has no `&`, `)` or whitespace) and `versionId = "V"`,
all conditions of the claim hold, yet parsing the constructed URL returns
version `Z` — the first `version-id=` occurrence sits inside the node-id
value — so the round-trip fails. -/
theorem C10_counterexample :
    parseFigmaUrl (createCleanFigmaUrl "a".toList "1:bversion-id=Z".toList "V".toList) =
      some { fileId := "a".toList, nodeId := "1:bversion-id=Z".toList,
             versionId := some "Z".toList } ∧
    parseFigmaUrl (createCleanFigmaUrl "a".toList "1:bversion-id=Z".toList "V".toList) ≠
      some { fileId := "a".toList, nodeId := "1:bversion-id=Z".toList,
             versionId := some "V".toList } := by
  decide

/-- Claim C5 (counterexample): a start sentinel numbered 1 and an end
sentinel numbered 2 do not carry the same entry number, yet the filter
consumes the whole span (the result is empty) instead of leaving the
mismatched sentinels and their content untouched. -/
theorem C5_counterexample :
    extractUnprotectedSpecsContent textC5 = [] ∧ textC5 ≠ [] := by
  decide

/-- Claim C3 (counterexample): on a document whose sentinel occurs both
before and after the managed-section heading (with an unrelated heading
following), the splicer's result differs from the four-way policy of the
claim: the entries are spliced at the first sentinel occurrence of the
whole document, which lies before the heading. -/
theorem C3_counterexample :
    updateDesignSpecsSection bodyC3 "NEW".toList (analyzeDesignSpecsSection bodyC3) ≠
      fourWayInsertSpec bodyC3 "NEW".toList := by
  decide

/-- Claim C1 (code bug, failing input `docC1`): the same Figma URL occurs
twice in the document; the first run deduplicates the two matches into one
and `replace` rewrites only the first occurrence, so the leftover copy is
re-matched by the second run, which emits a second catalog entry and
changes the document again (hence a second store write). -/
theorem C1_second_run_modifies_output :
    runMain ceEnv docC1run1 ≠ docC1run1 := by
  decide

/-- Claim C2 (code bug, failing input `docC2`): the managed section holds
exactly one complete protected-entry pair, but the counter counts
`### Design Spec \d+` headings, which `createDesignSpecSnippet` never
emits; so the analysis reports 0 existing entries and the new link is
numbered 1 instead of 2. -/
theorem C2_numbering_ignores_protected_pairs :
    specNumbersFor docC2 = [1] ∧
    (analyzeDesignSpecsSection docC2).existingSpecCount = 0 ∧
    specCompletePairCount (sectionContentOf docC2).length (sectionContentOf docC2) = 1 := by
  decide

/-- Claim C4 (code bug, failing input `docC4`): the section holds one
complete protected entry and one unprotected stray link whose text equals
the clean URL inside the protected entry; `replace` deletes the *first*
occurrence of that text, which lies inside the protected entry, so the
protected entry is not byte-identical after the run. -/
theorem C4_protected_entry_mutated :
    containsSubB ceSnippet1 docC4 = true ∧
    containsSubB ceSnippet1 (runMain ceEnv docC4) = false := by
  decide

/-- Claim C6 (counterexample): in `docC6` the in-section unprotected match
`ceUrlF` is scheduled for deletion, but its raw text occurs first above
the section (as a prefix of a longer, failing match); the run deletes that
above-section span (leaving `Intro xyz`) while the in-section match
survives right after the heading — the match's own raw span is not the
text that gets replaced. -/
theorem C6_counterexample :
    containsSubB ("## Design Specs\n".toList ++ ceUrlF) (runMain ceEnv docC6) = true ∧
    containsSubB ("Intro xyz".toList) (runMain ceEnv docC6) = true ∧
    containsSubB ("Intro ".toList ++ ceUrlF) docC6 = true := by
  decide

/-- Claim C7 (counterexample): `docC7` contains two headings matching the
managed-section pattern, yet the run performs no error handling at all: it
processes the link found above the first heading and produces a changed
document (hence a store write). -/
theorem C7_counterexample :
    countHeadingMatchPositions docC7 = 2 ∧ runMain ceEnv docC7 ≠ docC7 := by
  decide

/-! ### List and scanner lemmas -/

theorem takeAppendLen (a b : List Char) : (a ++ b).take a.length = a := by
  induction a with
  | nil => rfl
  | cons x xs ih => simp [ih]

theorem dropAppendLen (a b : List Char) : (a ++ b).drop a.length = b := by
  induction a with
  | nil => rfl
  | cons x xs ih => simp [ih]

theorem isPrefixOf_nil (z : List Char) : List.isPrefixOf [] z = true := by
  cases z <;> rfl

theorem isPrefixOf_self_append (p rest : List Char) :
    p.isPrefixOf (p ++ rest) = true := by
  induction p with
  | nil => rw [List.nil_append]; exact isPrefixOf_nil rest
  | cons c cs ih => simp [List.isPrefixOf, ih]

theorem isPrefixOf_length_le : ∀ p z : List Char, p.isPrefixOf z = true →
    p.length ≤ z.length := by
  intro p
  induction p with
  | nil => intro z _; exact Nat.zero_le _
  | cons c cs ih =>
    intro z h
    cases z with
    | nil => simp [List.isPrefixOf] at h
    | cons d ds =>
      simp only [List.isPrefixOf, Bool.and_eq_true, beq_iff_eq] at h
      simpa using Nat.succ_le_succ (ih ds h.2)

theorem isPrefixOf_getD : ∀ (p z : List Char) (i : Nat) (d : Char),
    p.isPrefixOf z = true → i < p.length → z.getD i d = p.getD i d := by
  intro p
  induction p with
  | nil => intro z i d _ hi; simp at hi
  | cons c cs ih =>
    intro z i d h hi
    cases z with
    | nil => simp [List.isPrefixOf] at h
    | cons e es =>
      simp only [List.isPrefixOf, Bool.and_eq_true, beq_iff_eq] at h
      cases i with
      | zero => simp [List.getD, h.1]
      | succ j =>
        have := ih es j d h.2 (by simpa using Nat.lt_of_succ_lt_succ hi)
        simpa [List.getD] using this

theorem isPrefixOf_append_left : ∀ p q z : List Char,
    (p ++ q).isPrefixOf z = true → p.isPrefixOf z = true := by
  intro p
  induction p with
  | nil => intro q z _; exact isPrefixOf_nil z
  | cons c cs ih =>
    intro q z h
    cases z with
    | nil => simp [List.isPrefixOf] at h
    | cons e es =>
      simp only [List.cons_append, List.isPrefixOf, Bool.and_eq_true] at h ⊢
      exact ⟨h.1, ih q es h.2⟩

theorem isPrefixOf_append_of_le : ∀ p ys rest : List Char,
    p.length ≤ ys.length → p.isPrefixOf (ys ++ rest) = p.isPrefixOf ys := by
  intro p
  induction p with
  | nil => intro ys rest _; rw [isPrefixOf_nil, isPrefixOf_nil]
  | cons c cs ih =>
    intro ys rest h
    cases ys with
    | nil => simp at h
    | cons e es =>
      simp only [List.cons_append, List.isPrefixOf]
      rw [show es.append rest = es ++ rest from rfl,
        ih es rest (Nat.le_of_succ_le_succ (by simpa using h))]

theorem isPrefixOf_eq_append : ∀ p z : List Char, p.isPrefixOf z = true →
    z = p ++ z.drop p.length := by
  intro p
  induction p with
  | nil => intro z _; rfl
  | cons c cs ih =>
    intro z h
    cases z with
    | nil => simp [List.isPrefixOf] at h
    | cons e es =>
      simp only [List.isPrefixOf, Bool.and_eq_true, beq_iff_eq] at h
      simpa [h.1.symm] using ih es h.2

theorem findSub_le_length (pat : List Char) : ∀ s i, findSub pat s = some i →
    i ≤ s.length := by
  intro s
  induction s with
  | nil =>
    intro i h
    simp only [findSub] at h
    split at h
    · simp at h; omega
    · simp at h
  | cons c rest ih =>
    intro i h
    simp only [findSub] at h
    split at h
    · simp at h; omega
    · cases hf : findSub pat rest with
      | none => rw [hf] at h; simp at h
      | some j =>
        rw [hf] at h
        simp at h
        have := ih j hf
        simp [← h]
        omega

theorem findSub_at (pat : List Char) : ∀ s i, findSub pat s = some i →
    pat.isPrefixOf (s.drop i) = true := by
  intro s
  induction s with
  | nil =>
    intro i h
    simp only [findSub] at h
    split at h
    next he =>
      simp at h
      subst h
      cases pat with
      | nil => rfl
      | cons x xs => simp [List.isEmpty] at he
    next => simp at h
  | cons c rest ih =>
    intro i h
    simp only [findSub] at h
    split at h
    next hp => simp at h; subst h; simpa using hp
    next hp =>
      cases hf : findSub pat rest with
      | none => rw [hf] at h; simp at h
      | some j =>
        rw [hf] at h
        simp at h
        subst h
        simpa using ih j hf

theorem findSub_min (pat : List Char) : ∀ s i, findSub pat s = some i →
    ∀ m, m < i → pat.isPrefixOf (s.drop m) = false := by
  intro s
  induction s with
  | nil =>
    intro i h m hm
    simp only [findSub] at h
    split at h
    · simp at h; omega
    · simp at h
  | cons c rest ih =>
    intro i h m hm
    simp only [findSub] at h
    split at h
    · simp at h; omega
    next hp =>
      cases hf : findSub pat rest with
      | none => rw [hf] at h; simp at h
      | some j =>
        rw [hf] at h
        simp at h
        subst h
        cases m with
        | zero => simpa using Bool.of_not_eq_true hp
        | succ m' => simpa using ih j hf m' (by omega)

theorem findSub_spec (pat : List Char) : ∀ (n : Nat) (s : List Char),
    pat.isPrefixOf (s.drop n) = true →
    (∀ m, m < n → pat.isPrefixOf (s.drop m) = false) →
    findSub pat s = some n := by
  intro n
  induction n with
  | zero =>
    intro s h _
    cases s with
    | nil =>
      simp only [List.drop_nil] at h
      cases pat with
      | nil => rfl
      | cons x xs => simp [List.isPrefixOf] at h
    | cons c rest =>
      rw [List.drop_zero] at h
      simp [findSub, h]
  | succ n' ih =>
    intro s h hmin
    cases s with
    | nil =>
      simp only [List.drop_nil] at h
      cases pat with
      | nil =>
        have h0 := hmin 0 (by omega)
        rw [List.drop_nil, isPrefixOf_nil] at h0
        exact absurd h0 (by simp)
      | cons x xs => simp [List.isPrefixOf] at h
    | cons c rest =>
      have h0 := hmin 0 (by omega)
      simp only [List.drop] at h0
      simp only [findSub, h0, Bool.false_eq_true, if_false]
      rw [ih rest (by simpa using h) (fun m hm => by simpa using hmin (m + 1) (by omega))]
      rfl

theorem findSub_none_forall (pat : List Char) : ∀ s, findSub pat s = none →
    ∀ j, pat.isPrefixOf (s.drop j) = false := by
  intro s
  induction s with
  | nil =>
    intro h j
    simp only [findSub] at h
    split at h
    · simp at h
    next he =>
      cases pat with
      | nil => simp [List.isEmpty] at he
      | cons x xs => simp [List.isPrefixOf]
  | cons c rest ih =>
    intro h j
    simp only [findSub] at h
    split at h
    · simp at h
    next hp =>
      cases hf : findSub pat rest with
      | none =>
        cases j with
        | zero => simpa using Bool.of_not_eq_true hp
        | succ j' => simpa using ih hf j'
      | some i => rw [hf] at h; simp at h

theorem containsSubB_false_forall (pat : List Char) : ∀ s,
    containsSubB pat s = false → ∀ j, pat.isPrefixOf (s.drop j) = false := by
  intro s
  induction s with
  | nil =>
    intro h j
    simp only [containsSubB] at h
    cases pat with
    | nil => simp [List.isEmpty] at h
    | cons x xs => simp [List.isPrefixOf]
  | cons c rest ih =>
    intro h j
    simp only [containsSubB, Bool.or_eq_false_iff] at h
    cases j with
    | zero => simpa using h.1
    | succ j' => simpa using ih h.2 j'

theorem getD_append_lt (a b : List Char) :
    ∀ (i : Nat) (d : Char), i < a.length → (a ++ b).getD i d = a.getD i d := by
  induction a with
  | nil => intro i d h; simp at h
  | cons x xs ih =>
    intro i d h
    cases i with
    | zero => rfl
    | succ j => simpa [List.getD] using ih j d (by simpa using Nat.lt_of_succ_lt_succ h)

theorem getD_append_len (a b : List Char) (d : Char) :
    (a ++ b).getD a.length d = b.getD 0 d := by
  induction a with
  | nil => rfl
  | cons x xs ih => simpa [List.getD] using ih

theorem getD_mem (p : List Char) (i : Nat) (d : Char) (h : i < p.length) :
    p.getD i d ∈ p := by
  induction p generalizing i with
  | nil => simp at h
  | cons x xs ih =>
    cases i with
    | zero => simp [List.getD]
    | succ j =>
      have := ih j (by simpa using Nat.lt_of_succ_lt_succ h)
      simp [List.getD] at this ⊢
      right
      exact this

theorem mismatchWithin_sound (pat ys : List Char) (h : mismatchWithin pat ys = true) :
    ∀ rest, pat.isPrefixOf (ys ++ rest) = false := by
  intro rest
  by_contra hc
  have hp : pat.isPrefixOf (ys ++ rest) = true := by
    cases hb : pat.isPrefixOf (ys ++ rest) with
    | false => exact absurd hb hc
    | true => rfl
  simp only [mismatchWithin, List.any_eq_true, List.mem_range] at h
  obtain ⟨i, hi, hne⟩ := h
  have h1 : (ys ++ rest).getD i ' ' = pat.getD i ' ' :=
    isPrefixOf_getD pat (ys ++ rest) i ' ' hp (by omega)
  have h2 : (ys ++ rest).getD i ' ' = ys.getD i ' ' :=
    getD_append_lt ys rest i ' ' (by omega)
  simp only [Bool.not_eq_eq_eq_not, Bool.not_true, decide_eq_false_iff_not] at hne
  exact hne (by rw [← h1, h2])

theorem noPrefixWithinB_sound (pat xs : List Char) (h : noPrefixWithinB pat xs = true) :
    ∀ rest j, j < xs.length → pat.isPrefixOf (List.drop j xs ++ rest) = false := by
  intro rest j hj
  simp only [noPrefixWithinB, List.all_eq_true, List.mem_range] at h
  exact mismatchWithin_sound pat (xs.drop j) (h j hj) rest

theorem getSubstitution_single (m b a : List Char) (r : Char) :
    getSubstitution m b a [r] = [r] := by
  rfl

theorem findSub_single (c : Char) (a b : List Char) (h : c ∉ a) :
    findSub [c] (a ++ c :: b) = some a.length := by
  induction a with
  | nil =>
    have : List.isPrefixOf [c] (c :: b) = true := by simp [List.isPrefixOf]
    simp [findSub, this]
  | cons x xs ih =>
    have hx : ¬(c = x) := fun he => h (by simp [he])
    have hpre : List.isPrefixOf [c] (x :: (xs ++ c :: b)) = false := by
      simp [List.isPrefixOf, hx]
    have ih' := ih (fun hm => h (by simp [hm]))
    simp [findSub, hpre, ih']

theorem jsReplaceFirst_single (c r : Char) (a b : List Char) (h : c ∉ a) :
    jsReplaceFirst (a ++ c :: b) [c] [r] = a ++ r :: b := by
  unfold jsReplaceFirst
  rw [findSub_single c a b h]
  simp only [getSubstitution_single]
  have ht : (a ++ c :: b).take a.length = a := takeAppendLen a (c :: b)
  have hd : (a ++ c :: b).drop (a.length + 1) = b := by
    have e1 : a ++ c :: b = (a ++ [c]) ++ b := by simp
    have e2 : a.length + 1 = (a ++ [c]).length := by simp
    rw [e1, e2, dropAppendLen]
  simp only [List.length_cons, List.length_nil, Nat.zero_add]
  rw [ht, hd]
  simp

/-- Claim C9: on a sub-object identifier of the form `a ++ "-" ++ b` whose
part before the first hyphen is hyphen-free, normalization
(`convertNodeIdToColonFormat`, the same `replace("-", ":")` that
`parseFigmaUrl` performs inline) rewrites exactly that first hyphen to a
colon and leaves the rest — including any later hyphens in `b` —
untouched. -/
theorem C9_first_hyphen_only (a b : List Char) (h : '-' ∉ a) :
    convertNodeIdToColonFormat (a ++ '-' :: b) = a ++ ':' :: b := by
  unfold convertNodeIdToColonFormat
  exact jsReplaceFirst_single '-' ':' a b h

/-- Witness for C9 at the two identifiers of the claim:
`3143-20344 ↦ 3143:20344` and `3143-20-344 ↦ 3143:20-344`. -/
theorem C9_witness :
    convertNodeIdToColonFormat ("3143-20344").toList = ("3143:20344").toList ∧
    convertNodeIdToColonFormat ("3143-20-344").toList = ("3143:20-344").toList := by
  constructor
  · have e1 : ("3143-20344").toList = ("3143").toList ++ '-' :: ("20344").toList := by
      decide
    have e2 : ("3143:20344").toList = ("3143").toList ++ ':' :: ("20344").toList := by
      decide
    rw [e1, e2]
    exact C9_first_hyphen_only _ _ (by decide)
  · have e1 : ("3143-20-344").toList = ("3143").toList ++ '-' :: ("20-344").toList := by
      decide
    have e2 : ("3143:20-344").toList = ("3143").toList ++ ':' :: ("20-344").toList := by
      decide
    rw [e1, e2]
    exact C9_first_hyphen_only _ _ (by decide)

/-- Claim C7 (amended): multiple matching headings are not a detected
error condition; the analysis is total and simply locates the *first*
offset at which the case-insensitive heading pattern matches, and the run
proceeds normally from it. -/
theorem C7_amended_first_heading (doc : List Char) (n : Nat)
    (h1 : designSpecsMatchAtB doc n = true)
    (h2 : ∀ m, m < n → designSpecsMatchAtB doc m = false) :
    (analyzeDesignSpecsSection doc).hasSpecsSection = true ∧
    (analyzeDesignSpecsSection doc).specsSectionIndex = (n : Int) := by
  have hs : designSpecsSearch doc = some n := by
    unfold designSpecsSearch
    exact findSub_spec _ n _ (by simpa [designSpecsMatchAtB] using h1)
      (fun m hm => by simpa [designSpecsMatchAtB] using h2 m hm)
  simp [analyzeDesignSpecsSection, hs]

/-- Witness for the amended C7 on a document with two matching headings
(of different letter case): the analysis points at the first one. -/
theorem C7_amended_witness :
    (analyzeDesignSpecsSection ("x\n## Design Specs\nA\n## design specs\n").toList).hasSpecsSection = true ∧
    (analyzeDesignSpecsSection ("x\n## Design Specs\nA\n## design specs\n").toList).specsSectionIndex = (2 : Int) :=
  C7_amended_first_heading _ 2 (by decide)
    (by intro m hm; interval_cases m <;> decide)

theorem resolveFigmaLink_ref (env : FigmaEnv) (l : FigmaLink) (n : Nat)
    (pr : List Char × List Char) (h : resolveFigmaLink env l n = some pr) :
    pr.2 = if l.isInSpecsSection then [] else
      createReferenceText l.isMarkdownLink l.linkText n (designSpecIdFor n) := by
  unfold resolveFigmaLink at h
  cases hp : parseFigmaUrl l.url with
  | none => simp only [hp] at h; exact Option.noConfusion h
  | some parsed =>
    simp only [hp] at h
    cases hvid : parsed.versionId with
    | some v =>
      simp only [hvid] at h
      cases hi : env.nodeImageUrl l.fileId l.nodeId with
      | none => simp only [hi] at h; exact Option.noConfusion h
      | some img =>
        simp only [hi, Option.some_inj] at h
        rw [← h]
    | none =>
      simp only [hvid] at h
      cases hv : env.latestVersion l.fileId with
      | none => simp only [hv] at h; exact Option.noConfusion h
      | some ver =>
        simp only [hv] at h
        cases hi : env.nodeImageUrl l.fileId l.nodeId with
        | none => simp only [hi] at h; exact Option.noConfusion h
        | some img =>
          simp only [hi, Option.some_inj] at h
          rw [← h]

theorem processIndexed_spec (env : FigmaEnv) (count : Nat) :
    ∀ (L : List (Nat × FigmaLink)) (body specs : List Char),
    processIndexed env count body specs L =
      (L.foldl (fun b p =>
          match resolveFigmaLink env p.2 (count + p.1 + 1) with
          | none => b
          | some pr => jsReplaceFirst b p.2.fullMatch
              (if p.2.isInSpecsSection then [] else pr.2)) body,
       specs ++ (L.filterMap
          (fun p => (resolveFigmaLink env p.2 (count + p.1 + 1)).map Prod.fst)).flatten) := by
  intro L
  induction L with
  | nil => intro body specs; simp [processIndexed]
  | cons p rest ih =>
    intro body specs
    obtain ⟨i, l⟩ := p
    cases hr : resolveFigmaLink env l (count + i + 1) with
    | none => simp [processIndexed, hr, ih]
    | some pr =>
      obtain ⟨snip, ref⟩ := pr
      simp [processIndexed, hr, ih]

theorem processIndexed_filter (env : FigmaEnv) (count : Nat) :
    ∀ (L : List (Nat × FigmaLink)) (body specs : List Char),
    processIndexed env count body specs L =
      processIndexed env count body specs
        (L.filter (fun p => (resolveFigmaLink env p.2 (count + p.1 + 1)).isSome)) := by
  intro L
  induction L with
  | nil => intro body specs; rfl
  | cons p rest ih =>
    intro body specs
    obtain ⟨i, l⟩ := p
    cases hr : resolveFigmaLink env l (count + i + 1) with
    | none => simp [processIndexed, List.filter, hr, ih]
    | some pr => simp [processIndexed, List.filter, hr, ih]

/-- Claim C6 (amended): one run equals a two-phase batch update.  Phase 1
replaces, for every successfully resolved match in discovery order, the
*first occurrence of the match's raw text in the document as it then
stands* (the match's own span whenever that text occurs once): an
above-section match is replaced by the anchor-style reference
`createReferenceText … (designSpecIdFor n)` to its new entry `n`, a
within-section match by the empty string.  Phase 2 then inserts the
concatenated snippets of the resolved matches at the section's insertion
point.  No snippet is inserted before all replacements are applied. -/
theorem C6_amended_batch_replacement (env : FigmaEnv) (doc : List Char) :
    runMain env doc =
      (let A := analyzeDesignSpecsSection doc
       let L := findFigmaLinks doc A
       let I := (List.range L.length).zip L
       let body2 := I.foldl (fun b p =>
         match resolveFigmaLink env p.2 (A.existingSpecCount + p.1 + 1) with
         | none => b
         | some _ => jsReplaceFirst b p.2.fullMatch
             (if p.2.isInSpecsSection then [] else
               createReferenceText p.2.isMarkdownLink p.2.linkText
                 (A.existingSpecCount + p.1 + 1)
                 (designSpecIdFor (A.existingSpecCount + p.1 + 1)))) doc
       let specs := (I.filterMap (fun p =>
         (resolveFigmaLink env p.2 (A.existingSpecCount + p.1 + 1)).map Prod.fst)).flatten
       if L.isEmpty then doc
       else if specs.isEmpty then body2
       else updateDesignSpecsSection body2 specs A) := by
  unfold runMain
  simp only []
  set A := analyzeDesignSpecsSection doc with hA
  set L := findFigmaLinks doc A with hL
  by_cases he : L.isEmpty
  · simp [he]
  · simp only [he, if_false]
    rw [processIndexed_spec]
    have hfold : ∀ (I : List (Nat × FigmaLink)) (b : List Char),
        I.foldl (fun b p =>
          match resolveFigmaLink env p.2 (A.existingSpecCount + p.1 + 1) with
          | none => b
          | some pr => jsReplaceFirst b p.2.fullMatch
              (if p.2.isInSpecsSection then [] else pr.2)) b =
        I.foldl (fun b p =>
          match resolveFigmaLink env p.2 (A.existingSpecCount + p.1 + 1) with
          | none => b
          | some _ => jsReplaceFirst b p.2.fullMatch
              (if p.2.isInSpecsSection then [] else
                createReferenceText p.2.isMarkdownLink p.2.linkText
                  (A.existingSpecCount + p.1 + 1)
                  (designSpecIdFor (A.existingSpecCount + p.1 + 1)))) b := by
      intro I
      induction I with
      | nil => intro b; rfl
      | cons p rest ih =>
        intro b
        simp only [List.foldl_cons]
        cases hr : resolveFigmaLink env p.2 (A.existingSpecCount + p.1 + 1) with
        | none => simp only [hr]; exact ih b
        | some pr =>
          simp only [hr]
          rw [resolveFigmaLink_ref env p.2 (A.existingSpecCount + p.1 + 1) pr hr]
          by_cases hin : p.2.isInSpecsSection
          · simp only [hin, if_true]
            exact ih _
          · simp only [hin, if_false]
            exact ih _
    rw [hfold]
    simp

/-- Claim C8: per-link failure isolation.  A run equals the same run
performed only over the links whose external lookups succeed, each kept at
its original loop position (and hence original entry number): a failing
link contributes no replacement and no snippet, every other link of the
batch is processed normally, and the final document reflects exactly the
successfully resolved subset — one failure never aborts the batch. -/
theorem C8_failed_links_are_skipped (env : FigmaEnv) (doc : List Char) :
    runMain env doc =
      (let A := analyzeDesignSpecsSection doc
       let L := findFigmaLinks doc A
       let I := (List.range L.length).zip L
       let S := I.filter (fun p =>
         (resolveFigmaLink env p.2 (A.existingSpecCount + p.1 + 1)).isSome)
       if L.isEmpty then doc
       else
         let res := processIndexed env A.existingSpecCount doc [] S
         if res.2.isEmpty then res.1
         else updateDesignSpecsSection res.1 res.2 A) := by
  unfold runMain
  simp only []
  set A := analyzeDesignSpecsSection doc with hA
  set L := findFigmaLinks doc A with hL
  by_cases he : L.isEmpty
  · simp [he]
  · simp only [he, if_false]
    rw [processIndexed_filter]

theorem takeWhile_append_stop (p : Char → Bool) :
    ∀ (xs : List Char) (y : Char) (ys : List Char), (∀ c ∈ xs, p c = true) →
    p y = false → List.takeWhile p (xs ++ y :: ys) = xs := by
  intro xs
  induction xs with
  | nil => intro y ys _ hy; simp [List.takeWhile, hy]
  | cons x xs' ih =>
    intro y ys hall hy
    have hx : p x = true := hall x (by simp)
    simp only [List.cons_append, List.takeWhile, hx]
    rw [show xs'.append (y :: ys) = xs' ++ y :: ys from rfl,
      ih y ys (fun c hc => hall c (by simp [hc])) hy]

theorem containsSubB_cons_false (pat : List Char) (c : Char) (rest : List Char)
    (h : containsSubB pat (c :: rest) = false) : containsSubB pat rest = false := by
  simp only [containsSubB, Bool.or_eq_false_iff] at h
  exact h.2

theorem noCommentStartInside (pat mid rest' : List Char)
    (hpat : commentOpen.isPrefixOf pat = true)
    (hmid : containsSubB commentOpen mid = false) :
    ∀ j, j < mid.length → pat.isPrefixOf (List.drop j mid ++ '<' :: rest') = false := by
  intro j hj
  cases hb : pat.isPrefixOf (List.drop j mid ++ '<' :: rest') with
  | false => rfl
  | true =>
    exfalso
    have hco : commentOpen.isPrefixOf (List.drop j mid ++ '<' :: rest') = true := by
      have hdec := isPrefixOf_eq_append commentOpen pat hpat
      rw [hdec] at hb
      exact isPrefixOf_append_left _ _ _ hb
    by_cases hlen : commentOpen.length ≤ (List.drop j mid).length
    · rw [isPrefixOf_append_of_le _ _ _ hlen] at hco
      have := containsSubB_false_forall commentOpen mid hmid j
      rw [this] at hco
      exact Bool.false_ne_true hco
    · have hk1 : 1 ≤ (List.drop j mid).length := by
        simp only [List.length_drop]
        omega
      have hco4 : commentOpen.length = 4 := by decide
      have hk4 : (List.drop j mid).length < 4 := by omega
      have hgd : (List.drop j mid ++ '<' :: rest').getD (List.drop j mid).length ' ' =
          commentOpen.getD (List.drop j mid).length ' ' :=
        isPrefixOf_getD _ _ _ ' ' hco (by omega)
      rw [getD_append_len] at hgd
      have hgd' : commentOpen.getD (List.drop j mid).length ' ' = '<' := by
        rw [hgd.symm]
        rfl
      have h123 : (List.drop j mid).length = 1 ∨ (List.drop j mid).length = 2 ∨
          (List.drop j mid).length = 3 := by omega
      rcases h123 with h | h | h <;> rw [h] at hgd' <;> exact absurd hgd' (by decide)

theorem endMarkerParseAt_hit (db suf : List Char) (h1 : db ≠ [])
    (h2 : db.all isAsciiDigit = true) :
    endMarkerParseAt (emOf db ++ suf) = some (db, (emOf db).length) := by
  have hpre : emHead.isPrefixOf (emOf db ++ suf) = true := by
    have : emOf db ++ suf = emHead ++ (db ++ emTail ++ suf) := by
      simp [emOf]
    rw [this]
    exact isPrefixOf_self_append _ _
  have hdrop : List.drop emHead.length (emOf db ++ suf) = db ++ emTail ++ suf := by
    have : emOf db ++ suf = emHead ++ (db ++ (emTail ++ suf)) := by simp [emOf]
    rw [this, dropAppendLen]
    simp
  have htw : List.takeWhile isAsciiDigit (db ++ emTail ++ suf) = db := by
    have he : emTail ++ suf = ' ' :: ("- DO NOT EDIT CONTENT ABOVE -->".toList ++ suf) := by
      have : emTail = ' ' :: "- DO NOT EDIT CONTENT ABOVE -->".toList := by decide
      rw [this]
      simp
    calc List.takeWhile isAsciiDigit (db ++ emTail ++ suf)
        = List.takeWhile isAsciiDigit (db ++ (emTail ++ suf)) := by rw [List.append_assoc]
      _ = db := by
          rw [he]
          exact takeWhile_append_stop isAsciiDigit db ' ' _
            (fun c hc => by simpa using (List.all_eq_true.mp h2) c hc) (by decide)
  have hdrop2 : List.drop (emHead.length + db.length) (emOf db ++ suf) =
      emTail ++ suf := by
    have : emOf db ++ suf = (emHead ++ db) ++ (emTail ++ suf) := by simp [emOf]
    rw [this, show emHead.length + db.length = (emHead ++ db).length by simp,
      dropAppendLen]
  have htail : emTail.isPrefixOf (emTail ++ suf) = true := isPrefixOf_self_append _ _
  unfold endMarkerParseAt
  rw [hpre]
  simp only [if_true, hdrop, htw, hdrop2, htail]
  have hne : db.isEmpty = false := by
    cases db with
    | nil => exact absurd rfl h1
    | cons x xs => rfl
  rw [hne]
  simp [emOf]
  omega

theorem startMarkerParseAt_hit (da suf : List Char) (h1 : da ≠ [])
    (h2 : da.all isAsciiDigit = true) :
    startMarkerParseAt (smOf da ++ suf) = some (da, (smOf da).length) := by
  have hpre : smHead.isPrefixOf (smOf da ++ suf) = true := by
    have : smOf da ++ suf = smHead ++ (da ++ smTail ++ suf) := by
      simp [smOf]
    rw [this]
    exact isPrefixOf_self_append _ _
  have hdrop : List.drop smHead.length (smOf da ++ suf) = da ++ smTail ++ suf := by
    have : smOf da ++ suf = smHead ++ (da ++ (smTail ++ suf)) := by simp [smOf]
    rw [this, dropAppendLen]
    simp
  have htw : List.takeWhile isAsciiDigit (da ++ smTail ++ suf) = da := by
    have he : smTail ++ suf = ' ' :: ("- DO NOT EDIT CONTENT BELOW -->".toList ++ suf) := by
      have : smTail = ' ' :: "- DO NOT EDIT CONTENT BELOW -->".toList := by decide
      rw [this]
      simp
    calc List.takeWhile isAsciiDigit (da ++ smTail ++ suf)
        = List.takeWhile isAsciiDigit (da ++ (smTail ++ suf)) := by rw [List.append_assoc]
      _ = da := by
          rw [he]
          exact takeWhile_append_stop isAsciiDigit da ' ' _
            (fun c hc => by simpa using (List.all_eq_true.mp h2) c hc) (by decide)
  have hdrop2 : List.drop (smHead.length + da.length) (smOf da ++ suf) =
      smTail ++ suf := by
    have : smOf da ++ suf = (smHead ++ da) ++ (smTail ++ suf) := by simp [smOf]
    rw [this, show smHead.length + da.length = (smHead ++ da).length by simp,
      dropAppendLen]
  have htail : smTail.isPrefixOf (smTail ++ suf) = true := isPrefixOf_self_append _ _
  unfold startMarkerParseAt
  rw [hpre]
  simp only [if_true, hdrop, htw, hdrop2, htail]
  have hne : da.isEmpty = false := by
    cases da with
    | nil => exact absurd rfl h1
    | cons x xs => rfl
  rw [hne]
  simp [smOf]
  omega

theorem emOf_cons (db suf : List Char) :
    emOf db ++ suf = '<' :: ("!-- END_SPEC_".toList ++ db ++ emTail ++ suf) := by
  have : emHead = '<' :: "!-- END_SPEC_".toList := by decide
  simp [emOf, this]

theorem smOf_cons (da suf : List Char) :
    smOf da ++ suf = '<' :: ("!-- START_SPEC_".toList ++ da ++ smTail ++ suf) := by
  have : smHead = '<' :: "!-- START_SPEC_".toList := by decide
  simp [smOf, this]

theorem findEndMarkerParseFrom_hit (mid db suf : List Char)
    (hmid : containsSubB commentOpen mid = false) (h1 : db ≠ [])
    (h2 : db.all isAsciiDigit = true) :
    findEndMarkerParseFrom (mid ++ emOf db ++ suf) =
      some (mid.length, db, (emOf db).length) := by
  induction mid with
  | nil =>
    rw [List.nil_append]
    rw [show emOf db ++ suf = '<' :: ("!-- END_SPEC_".toList ++ db ++ emTail ++ suf)
      from emOf_cons db suf]
    rw [show findEndMarkerParseFrom ('<' :: ("!-- END_SPEC_".toList ++ db ++ emTail ++ suf)) =
      (match endMarkerParseAt ('<' :: ("!-- END_SPEC_".toList ++ db ++ emTail ++ suf)) with
       | some (ds, len) => some (0, ds, len)
       | none =>
         match findEndMarkerParseFrom ("!-- END_SPEC_".toList ++ db ++ emTail ++ suf) with
         | some (off, ds, len) => some (off + 1, ds, len)
         | none => none) from rfl]
    rw [show ('<' :: ("!-- END_SPEC_".toList ++ db ++ emTail ++ suf)) = emOf db ++ suf
      from (emOf_cons db suf).symm]
    rw [endMarkerParseAt_hit db suf h1 h2]
    rfl
  | cons c mid' ih =>
    have hnone : endMarkerParseAt ((c :: mid') ++ emOf db ++ suf) = none := by
      have hfalse : emHead.isPrefixOf (List.drop 0 (c :: mid') ++ '<' ::
          ("!-- END_SPEC_".toList ++ db ++ emTail ++ suf)) = false := by
        exact noCommentStartInside emHead (c :: mid') _ (by decide)
          hmid 0 (by simp)
      rw [List.drop_zero] at hfalse
      unfold endMarkerParseAt
      rw [List.append_assoc, show emOf db ++ suf = '<' ::
        ("!-- END_SPEC_".toList ++ db ++ emTail ++ suf) from emOf_cons db suf, hfalse]
      simp
  -- one step of the scan, then the induction hypothesis
    have hstep : findEndMarkerParseFrom ((c :: mid') ++ emOf db ++ suf) =
        (match endMarkerParseAt ((c :: mid') ++ emOf db ++ suf) with
         | some (ds, len) => some (0, ds, len)
         | none =>
           match findEndMarkerParseFrom (mid' ++ emOf db ++ suf) with
           | some (off, ds, len) => some (off + 1, ds, len)
           | none => none) := rfl
    rw [hstep, hnone]
    rw [ih (containsSubB_cons_false _ _ _ hmid)]
    simp

theorem startMarkerParseAt_pos (t : List Char) (p : List Char × Nat)
    (h : startMarkerParseAt t = some p) : 1 ≤ p.2 := by
  simp only [startMarkerParseAt] at h
  split at h
  · split at h
    · exact Option.noConfusion h
    · split at h
      · rw [Option.some_inj] at h
        rw [← h]
        have h16 : smHead.length = 16 := by decide
        simp [h16]
        omega
      · exact Option.noConfusion h
  · exact Option.noConfusion h

theorem protSpanLenAt_pos (t : List Char) (n : Nat) (h : protSpanLenAt t = some n) :
    1 ≤ n := by
  simp only [protSpanLenAt] at h
  split at h
  · exact Option.noConfusion h
  next ds sl hp =>
    split at h
    next off ds2 el hq =>
      rw [Option.some_inj] at h
      have hpos := startMarkerParseAt_pos t (ds, sl) hp
      simp at hpos
      omega
    · exact Option.noConfusion h

theorem euGo_congr : ∀ (f g : Nat) (s : List Char), s.length ≤ f → s.length ≤ g →
    euGo f s = euGo g s := by
  intro f
  induction f with
  | zero =>
    intro g s hf _
    have : s = [] := List.length_eq_zero.mp (by omega)
    subst this
    cases g <;> rfl
  | succ f' ih =>
    intro g s hf hg
    cases s with
    | nil => cases g <;> rfl
    | cons c rest =>
      cases g with
      | zero => simp at hg
      | succ g' =>
        show euGo (f' + 1) (c :: rest) = euGo (g' + 1) (c :: rest)
        simp only [euGo]
        cases hp : protSpanLenAt (c :: rest) with
        | some n =>
          have hpos := protSpanLenAt_pos _ _ hp
          have hlen : (List.drop n (c :: rest)).length ≤ f' := by
            simp only [List.length_drop, List.length_cons] at *
            omega
          have hlen2 : (List.drop n (c :: rest)).length ≤ g' := by
            simp only [List.length_drop, List.length_cons] at *
            omega
          exact ih g' _ hlen hlen2
        | none =>
          have : euGo f' rest = euGo g' rest := by
            apply ih g' rest <;> simp only [List.length_cons] at * <;> omega
          rw [this]

theorem extract_span (s : List Char) (n : Nat) (h : protSpanLenAt s = some n) :
    extractUnprotectedSpecsContent s = extractUnprotectedSpecsContent (List.drop n s) := by
  cases s with
  | nil =>
    unfold protSpanLenAt startMarkerParseAt at h
    simp [List.isPrefixOf, smHead] at h
  | cons c rest =>
    unfold extractUnprotectedSpecsContent
    show euGo (rest.length + 1) (c :: rest) = _
    simp only [euGo, h]
    apply euGo_congr
    · simp only [List.length_drop, List.length_cons]
      have := protSpanLenAt_pos _ _ h
      omega
    · exact Nat.le_refl _

theorem extract_nospan (c : Char) (rest : List Char)
    (h : protSpanLenAt (c :: rest) = none) :
    extractUnprotectedSpecsContent (c :: rest) =
      c :: extractUnprotectedSpecsContent rest := by
  unfold extractUnprotectedSpecsContent
  show euGo (rest.length + 1) (c :: rest) = _
  simp only [euGo, h]

theorem hasEndMarkerB_cons_false (c : Char) (rest : List Char)
    (h : hasEndMarkerB (c :: rest) = false) :
    endMarkerParseAt (c :: rest) = none ∧ hasEndMarkerB rest = false := by
  unfold hasEndMarkerB findEndMarkerParseFrom at h
  constructor
  · cases he : endMarkerParseAt (c :: rest) with
    | none => rfl
    | some p =>
      obtain ⟨ds, len⟩ := p
      rw [he] at h
      simp at h
  · cases he : endMarkerParseAt (c :: rest) with
    | none =>
      rw [he] at h
      unfold hasEndMarkerB
      cases hf : findEndMarkerParseFrom rest with
      | none => rfl
      | some q =>
        obtain ⟨off, ds, len⟩ := q
        rw [hf] at h
        simp at h
    | some p =>
      obtain ⟨ds, len⟩ := p
      rw [he] at h
      simp at h

theorem hasEndMarkerB_drop_false : ∀ (s : List Char) (k : Nat),
    hasEndMarkerB s = false → hasEndMarkerB (List.drop k s) = false := by
  intro s
  induction s with
  | nil => intro k h; simpa [List.drop_nil] using h
  | cons c rest ih =>
    intro k h
    cases k with
    | zero => simpa using h
    | succ k' =>
      simp only [List.drop]
      exact ih k' (hasEndMarkerB_cons_false c rest h).2

theorem extract_id_of_no_end : ∀ s : List Char, hasEndMarkerB s = false →
    extractUnprotectedSpecsContent s = s := by
  intro s
  induction s with
  | nil => intro _; rfl
  | cons c rest ih =>
    intro h
    have hspan : protSpanLenAt (c :: rest) = none := by
      unfold protSpanLenAt
      cases hs : startMarkerParseAt (c :: rest) with
      | none => simp [hs]
      | some p =>
        obtain ⟨ds, sl⟩ := p
        simp only [hs]
        cases hf : findEndMarkerParseFrom (List.drop sl (c :: rest)) with
        | none => simp [hf]
        | some q =>
          exfalso
          have := hasEndMarkerB_drop_false (c :: rest) sl h
          unfold hasEndMarkerB at this
          rw [hf] at this
          simp at this
    rw [extract_nospan c rest hspan]
    rw [ih (hasEndMarkerB_cons_false c rest h).2]

theorem extract_decomp (mid suf da db : List Char) :
    ∀ pre : List Char, containsSubB commentOpen pre = false →
    containsSubB commentOpen mid = false →
    da ≠ [] → db ≠ [] →
    da.all isAsciiDigit = true → db.all isAsciiDigit = true →
    extractUnprotectedSpecsContent (pre ++ (smOf da ++ (mid ++ (emOf db ++ suf)))) =
      pre ++ extractUnprotectedSpecsContent suf := by
  intro pre
  induction pre with
  | nil =>
    intro _ hmid hda hdb hda2 hdb2
    rw [List.nil_append, List.nil_append]
    have hstart : startMarkerParseAt (smOf da ++ (mid ++ (emOf db ++ suf))) =
        some (da, (smOf da).length) := startMarkerParseAt_hit da _ hda hda2
    have hdrop : List.drop (smOf da).length (smOf da ++ (mid ++ (emOf db ++ suf))) =
        mid ++ (emOf db ++ suf) := dropAppendLen _ _
    have hend : findEndMarkerParseFrom (mid ++ (emOf db ++ suf)) =
        some (mid.length, db, (emOf db).length) := by
      rw [← List.append_assoc]
      exact findEndMarkerParseFrom_hit mid db suf hmid hdb hdb2
    have hspan : protSpanLenAt (smOf da ++ (mid ++ (emOf db ++ suf))) =
        some ((smOf da).length + mid.length + (emOf db).length) := by
      simp only [protSpanLenAt, hstart, hdrop, hend]
    have hdropS : List.drop ((smOf da).length + mid.length + (emOf db).length)
        (smOf da ++ (mid ++ (emOf db ++ suf))) = suf := by
      have e2 : smOf da ++ (mid ++ (emOf db ++ suf)) =
          ((smOf da ++ mid) ++ emOf db) ++ suf := by simp
      rw [e2, show (smOf da).length + mid.length + (emOf db).length =
        ((smOf da ++ mid) ++ emOf db).length by simp only [List.length_append]; try omega,
        dropAppendLen]
    rw [extract_span _ _ hspan, hdropS]
  | cons c pre' ih =>
    intro hpre hmid hda hdb hda2 hdb2
    have hprefalse : smHead.isPrefixOf ((c :: pre') ++
        ('<' :: ("!-- START_SPEC_".toList ++ da ++ smTail ++ (mid ++ (emOf db ++ suf))))) =
        false := by
      have := noCommentStartInside smHead (c :: pre')
        ("!-- START_SPEC_".toList ++ da ++ smTail ++ (mid ++ (emOf db ++ suf)))
        (by decide) hpre 0 (by simp)
      simpa using this
    have hshape : (c :: pre') ++ (smOf da ++ (mid ++ (emOf db ++ suf))) =
        (c :: pre') ++ ('<' :: ("!-- START_SPEC_".toList ++ da ++ smTail ++
          (mid ++ (emOf db ++ suf)))) := by
      rw [smOf_cons]
    have hstartnone : startMarkerParseAt
        (c :: (pre' ++ (smOf da ++ (mid ++ (emOf db ++ suf))))) = none := by
      unfold startMarkerParseAt
      rw [show (c :: (pre' ++ (smOf da ++ (mid ++ (emOf db ++ suf))))) =
        (c :: pre') ++ (smOf da ++ (mid ++ (emOf db ++ suf))) by simp]
      rw [hshape, hprefalse]
      simp
    have hnospan : protSpanLenAt
        (c :: (pre' ++ (smOf da ++ (mid ++ (emOf db ++ suf))))) = none := by
      simp only [protSpanLenAt, hstartnone]
    have harg : (c :: pre') ++ (smOf da ++ (mid ++ (emOf db ++ suf))) =
        c :: (pre' ++ (smOf da ++ (mid ++ (emOf db ++ suf)))) := by simp
    rw [harg, extract_nospan _ _ hnospan,
      ih (containsSubB_cons_false _ _ _ hpre) hmid hda hdb hda2 hdb2]
    simp

/-- Claim C5 (amended): the filter removes exactly the spans running from
a start sentinel to the *nearest following* end sentinel, regardless of
the entry numbers the two carry (the numbers need not match); and a start
sentinel with no following end sentinel at all is left untouched together
with all content (the text passes through unchanged when no end sentinel
occurs). -/
theorem C5_amended_filter :
    (∀ pre mid suf da db : List Char,
      containsSubB commentOpen pre = false →
      containsSubB commentOpen mid = false →
      da ≠ [] → db ≠ [] →
      da.all isAsciiDigit = true → db.all isAsciiDigit = true →
      extractUnprotectedSpecsContent (pre ++ (smOf da ++ (mid ++ (emOf db ++ suf)))) =
        pre ++ extractUnprotectedSpecsContent suf) ∧
    (∀ s : List Char, hasEndMarkerB s = false →
      extractUnprotectedSpecsContent s = s) :=
  ⟨fun pre mid suf da db h1 h2 h3 h4 h5 h6 =>
      extract_decomp mid suf da db pre h1 h2 h3 h4 h5 h6,
   extract_id_of_no_end⟩

/-- Witness for the amended C5: the span between `START_SPEC_1` and
`END_SPEC_2` (mismatched numbers) is removed together with only its own
content, while the surrounding text and an end-sentinel-free tail stay. -/
theorem C5_amended_witness :
    extractUnprotectedSpecsContent
        (("x").toList ++ (smOf ("1").toList ++ (("MID").toList ++
          (emOf ("2").toList ++ ("tail").toList)))) =
      ("x").toList ++ ("tail").toList := by
  rw [C5_amended_filter.1 ("x").toList ("MID").toList ("tail").toList
    ("1").toList ("2").toList (by decide) (by decide) (by decide) (by decide)
    (by decide) (by decide)]
  rw [C5_amended_filter.2 ("tail").toList (by decide)]

theorem drop_append_le : ∀ (xs ys : List Char) (n : Nat), n ≤ xs.length →
    (xs ++ ys).drop n = xs.drop n ++ ys := by
  intro xs
  induction xs with
  | nil =>
    intro ys n h
    have hz : n = 0 := by simpa using h
    subst hz
    simp
  | cons x xs' ih =>
    intro ys n h
    cases n with
    | zero => simp
    | succ n' => simpa using ih ys n' (by simpa using h)

theorem take_of_take_drop : ∀ (l : List Char) (m n : Nat),
    (l.take m).drop n = (l.drop n).take (m - n) := by
  intro l
  induction l with
  | nil => intro m n; simp
  | cons x xs ih =>
    intro m n
    cases m with
    | zero => simp
    | succ m' =>
      cases n with
      | zero => simp
      | succ n' => simpa using ih m' n'

theorem isPrefixOf_take : ∀ (p t : List Char) (m : Nat), p.isPrefixOf t = true →
    p.length ≤ m → p.isPrefixOf (t.take m) = true := by
  intro p
  induction p with
  | nil => intro t m _ _; exact isPrefixOf_nil _
  | cons c cs ih =>
    intro t m h hm
    cases t with
    | nil => simp [List.isPrefixOf] at h
    | cons e es =>
      cases m with
      | zero => simp at hm
      | succ m' =>
        simp only [List.isPrefixOf, Bool.and_eq_true] at h
        simp only [List.take, List.isPrefixOf, Bool.and_eq_true]
        exact ⟨h.1, ih es m' h.2 (by simpa using hm)⟩

theorem isPrefixOf_of_take : ∀ (p t : List Char) (m : Nat),
    p.isPrefixOf (t.take m) = true → p.isPrefixOf t = true := by
  intro p
  induction p with
  | nil => intro t m _; exact isPrefixOf_nil _
  | cons c cs ih =>
    intro t m h
    cases t with
    | nil => simp [List.isPrefixOf] at h
    | cons e es =>
      cases m with
      | zero => simp [List.isPrefixOf] at h
      | succ m' =>
        simp only [List.take, List.isPrefixOf, Bool.and_eq_true] at h
        simp only [List.isPrefixOf, Bool.and_eq_true]
        exact ⟨h.1, ih es m' h.2⟩

theorem getD_drop : ∀ (l : List Char) (k i : Nat) (d : Char),
    (l.drop k).getD i d = l.getD (k + i) d := by
  intro l
  induction l with
  | nil => intro k i d; simp
  | cons x xs ih =>
    intro k i d
    cases k with
    | zero => simp
    | succ k' =>
      show (xs.drop k').getD i d = _
      rw [ih k' i d]
      have he : k' + 1 + i = (k' + i) + 1 := by omega
      rw [he]
      rfl

theorem getD_map_lower : ∀ (l : List Char) (i : Nat) (d : Char), i < l.length →
    (l.map asciiLower).getD i d = asciiLower (l.getD i d) := by
  intro l
  induction l with
  | nil => intro i d h; simp at h
  | cons x xs ih =>
    intro i d h
    cases i with
    | zero => rfl
    | succ j => simpa [List.getD] using ih j d (by simpa using Nat.lt_of_succ_lt_succ h)

theorem jsSubstring_zero (s : List Char) (e : Nat) (he : e ≤ s.length) :
    jsSubstring s 0 ((e : Nat) : Int) = s.take e := by
  unfold jsSubstring
  dsimp only
  have h1 : min (max (0 : Int) 0) (s.length : Int) = 0 := by omega
  have h2 : min (max ((e : Nat) : Int) 0) (s.length : Int) = (e : Int) := by omega
  rw [h1, h2]
  have h3 : min (0 : Int) (e : Int) = 0 := by omega
  have h4 : max (0 : Int) (e : Int) = (e : Int) := by omega
  rw [h3, h4]
  simp

theorem jsSubstringFrom_nat (s : List Char) (e : Nat) (he : e ≤ s.length) :
    jsSubstringFrom s ((e : Nat) : Int) = s.drop e := by
  unfold jsSubstringFrom jsSubstring
  dsimp only
  have h1 : min (max ((e : Nat) : Int) 0) (s.length : Int) = (e : Int) := by omega
  have h2 : min (max ((s.length : Nat) : Int) 0) (s.length : Int) = (s.length : Int) := by
    omega
  rw [h1, h2]
  have h3 : min ((e : Nat) : Int) ((s.length : Nat) : Int) = (e : Int) := by omega
  have h4 : max ((e : Nat) : Int) ((s.length : Nat) : Int) = (s.length : Int) := by omega
  rw [h3, h4]
  simp

theorem em_no_newline : ∀ i, i < getDesignSpecsEndMarker.length →
    ¬ getDesignSpecsEndMarker.getD i ' ' = '\n' := by decide

theorem em_no_heading_char : ∀ i, i < getDesignSpecsEndMarker.length →
    ¬ asciiLower (getDesignSpecsEndMarker.getD i ' ') = '#' := by decide

theorem heading_at_lower (body : List Char) (h : Nat)
    (hh : designSpecsSearch body = some h) :
    (body.map asciiLower).getD h ' ' = '#' ∧
    h + designSpecsHeadingLower.length ≤ body.length := by
  have hat := findSub_at _ _ _ hh
  have hlen := isPrefixOf_length_le _ _ hat
  constructor
  · have h0 := isPrefixOf_getD _ _ 0 ' ' hat (by decide)
    rw [getD_drop] at h0
    simpa using h0
  · have h15 : designSpecsHeadingLower.length = 15 := by decide
    simp only [List.length_drop, List.length_map, h15] at hlen ⊢
    omega

theorem findSub_withEm_some (body : List Char) (h e k : Nat)
    (hh : designSpecsSearch body = some h)
    (hfe : findSub getDesignSpecsEndMarker body = some e)
    (hle : e ≤ h)
    (hk : findSub nextSectionPat (body.drop h) = some k) :
    findSub getDesignSpecsEndMarker
      (body.take (h + k) ++ '\n' :: (getDesignSpecsEndMarker ++ body.drop (h + k))) =
      some e := by
  obtain ⟨hlow, hbound⟩ := heading_at_lower body h hh
  have h15 : designSpecsHeadingLower.length = 15 := by decide
  have hkb : k ≤ body.length - h := by
    have := findSub_le_length _ _ _ hk
    simpa using this
  have hkpos : 1 ≤ k := by
    rcases Nat.eq_zero_or_pos k with hk0 | hk1
    · exfalso
      subst hk0
      have hat := findSub_at _ _ _ hk
      rw [List.drop_zero] at hat
      have hch := isPrefixOf_getD _ _ 0 ' ' hat (by decide)
      rw [getD_drop] at hch
      have hmap := getD_map_lower body (h + 0) ' ' (by omega)
      rw [hch] at hmap
      rw [show h + 0 = h by omega] at hmap
      rw [hlow] at hmap
      exact absurd hmap.symm (by decide)
    · exact hk1
  have hEat := findSub_at _ _ _ hfe
  have hElen := isPrefixOf_length_le _ _ hEat
  simp only [List.length_drop] at hElen
  have hEbound : e + getDesignSpecsEndMarker.length ≤ h := by
    by_contra hlt
    push_neg at hlt
    have hch := isPrefixOf_getD _ _ (h - e) ' ' hEat (by omega)
    rw [getD_drop] at hch
    rw [show e + (h - e) = h by omega] at hch
    have hmap := getD_map_lower body h ' ' (by omega)
    rw [hch] at hmap
    rw [hlow] at hmap
    exact em_no_heading_char (h - e) (by omega) hmap.symm
  have hhk : h + k ≤ body.length := by omega
  have htake_len : (body.take (h + k)).length = h + k := by
    simp
    omega
  apply findSub_spec
  · rw [drop_append_le _ _ e (by omega)]
    rw [isPrefixOf_append_of_le _ _ _ (by
      simp only [List.length_drop, htake_len]
      omega)]
    rw [take_of_take_drop]
    exact isPrefixOf_take _ _ _ hEat (by omega)
  · intro m hm
    rw [drop_append_le _ _ m (by omega)]
    by_cases hcase : getDesignSpecsEndMarker.length ≤ ((body.take (h + k)).drop m).length
    · rw [isPrefixOf_append_of_le _ _ _ hcase]
      rw [take_of_take_drop]
      cases hp2 : getDesignSpecsEndMarker.isPrefixOf
          ((body.drop m).take (h + k - m)) with
      | false => rfl
      | true =>
        exfalso
        have := isPrefixOf_of_take _ _ _ hp2
        rw [findSub_min _ _ _ hfe m hm] at this
        exact Bool.false_ne_true this
    · cases hp2 : getDesignSpecsEndMarker.isPrefixOf
          ((body.take (h + k)).drop m ++ '\n' ::
            (getDesignSpecsEndMarker ++ body.drop (h + k))) with
      | false => rfl
      | true =>
        exfalso
        push_neg at hcase
        have hch := isPrefixOf_getD _ _ ((body.take (h + k)).drop m).length ' ' hp2 hcase
        rw [getD_append_len] at hch
        exact em_no_newline _ hcase (by rw [← hch]; rfl)

theorem findSub_withEm_none (body : List Char) (h k : Nat)
    (hh : designSpecsSearch body = some h)
    (hfe : findSub getDesignSpecsEndMarker body = none)
    (hk : findSub nextSectionPat (body.drop h) = some k) :
    findSub getDesignSpecsEndMarker
      (body.take (h + k) ++ '\n' :: (getDesignSpecsEndMarker ++ body.drop (h + k))) =
      some (h + k + 1) := by
  obtain ⟨hlow, hbound⟩ := heading_at_lower body h hh
  have h15 : designSpecsHeadingLower.length = 15 := by decide
  have hkb : k ≤ body.length - h := by
    have := findSub_le_length _ _ _ hk
    simpa using this
  have hhk : h + k ≤ body.length := by omega
  have htake_len : (body.take (h + k)).length = h + k := by
    simp
    omega
  apply findSub_spec
  · have e2 : body.take (h + k) ++ '\n' ::
        (getDesignSpecsEndMarker ++ body.drop (h + k)) =
        (body.take (h + k) ++ ['\n']) ++
          (getDesignSpecsEndMarker ++ body.drop (h + k)) := by simp
    rw [e2, show h + k + 1 = (body.take (h + k) ++ ['\n']).length by
      simp only [List.length_append, htake_len]; simp, dropAppendLen]
    exact isPrefixOf_self_append _ _
  · intro m hm
    rw [drop_append_le _ _ m (by omega)]
    by_cases hcase : getDesignSpecsEndMarker.length ≤ ((body.take (h + k)).drop m).length
    · rw [isPrefixOf_append_of_le _ _ _ hcase]
      rw [take_of_take_drop]
      cases hp2 : getDesignSpecsEndMarker.isPrefixOf
          ((body.drop m).take (h + k - m)) with
      | false => rfl
      | true =>
        exfalso
        have := isPrefixOf_of_take _ _ _ hp2
        rw [findSub_none_forall _ _ hfe m] at this
        exact Bool.false_ne_true this
    · cases hp2 : getDesignSpecsEndMarker.isPrefixOf
          ((body.take (h + k)).drop m ++ '\n' ::
            (getDesignSpecsEndMarker ++ body.drop (h + k))) with
      | false => rfl
      | true =>
        exfalso
        push_neg at hcase
        have hch := isPrefixOf_getD _ _ ((body.take (h + k)).drop m).length ' ' hp2 hcase
        rw [getD_append_len] at hch
        exact em_no_newline _ hcase (by rw [← hch]; rfl)

/-- Claim C3 (amended): the splicer follows a four-way policy keyed on the
*first* occurrence of the end sentinel in the whole document.  When that
first occurrence lies strictly after the heading match, entries are
spliced in immediately before it; when the sentinel is absent, or its
first occurrence precedes the heading, the sentinel-less branches run: a
following `\n## ` heading gets a synthesized sentinel right before it and
the entries land at the first sentinel occurrence of the augmented
document (the synthesized one only if no occurrence preceded the
heading); with no following heading, the entries and a sentinel are
appended; with no section, a heading, the entries and a sentinel are
appended. -/
theorem C3_amended_four_way (body specs : List Char) (hne : specs ≠ []) :
    updateDesignSpecsSection body specs (analyzeDesignSpecsSection body) =
      amendedFourWayInsert body specs := by
  cases hh : designSpecsSearch body with
  | none =>
    have hana : analyzeDesignSpecsSection body =
        { hasSpecsSection := false, specsSectionIndex := -1,
          specsEndIndex := -1, existingSpecCount := 0 } := by
      simp [analyzeDesignSpecsSection, hh]
    rw [hana]
    simp [updateDesignSpecsSection, amendedFourWayInsert, hh]
  | some h =>
    have hana : analyzeDesignSpecsSection body =
        { hasSpecsSection := true, specsSectionIndex := (h : Int),
          specsEndIndex := jsIndexOf body getDesignSpecsEndMarker,
          existingSpecCount :=
            countSpecHeaders (extractSectionContent body (h : Int)
              (jsIndexOf body getDesignSpecsEndMarker)).length
              (extractSectionContent body (h : Int)
                (jsIndexOf body getDesignSpecsEndMarker)) } := by
      simp [analyzeDesignSpecsSection, hh]
    have hbound := (heading_at_lower body h hh).2
    have hhlen : h ≤ body.length := by omega
    rw [hana]
    unfold updateDesignSpecsSection amendedFourWayInsert
    simp only [hh]
    rw [if_pos trivial]
    cases hfe : findSub getDesignSpecsEndMarker body with
    | some e =>
      have hje : jsIndexOf body getDesignSpecsEndMarker = (e : Int) := by
        simp [jsIndexOf, hfe]
      simp only [hje]
      have helen : e ≤ body.length := findSub_le_length _ _ _ hfe
      by_cases hcmp : h < e
      · rw [if_pos (by exact_mod_cast hcmp : ((h : Nat) : Int) < ((e : Nat) : Int)),
          if_pos hcmp]
        rw [jsSubstring_zero body e helen, jsSubstringFrom_nat body e helen]
      · rw [if_neg (by
            intro hlt
            exact hcmp (by exact_mod_cast hlt)),
          if_neg hcmp]
        rw [jsSubstringFrom_nat body h hhlen]
        cases hk : findSub nextSectionPat (body.drop h) with
        | some k =>
          simp only [hk]
          have hcast : ((h : Nat) : Int) + ((k : Nat) : Int) = (((h + k : Nat)) : Int) := by
            push_cast
            ring
          rw [hcast]
          have hkb : k ≤ body.length - h := by
            simpa using findSub_le_length _ _ _ hk
          have hhk : h + k ≤ body.length := by omega
          rw [jsSubstring_zero body (h + k) hhk, jsSubstringFrom_nat body (h + k) hhk]
          have hW := findSub_withEm_some body h e k hh hfe (by omega) hk
          have hjeW : jsIndexOf (body.take (h + k) ++ '\n' ::
              (getDesignSpecsEndMarker ++ body.drop (h + k)))
              getDesignSpecsEndMarker = (e : Int) := by
            simp only [jsIndexOf, hW]
          simp only [List.cons_append, List.append_assoc]
          rw [hjeW]
          have hWlen : (body.take (h + k) ++ '\n' ::
              (getDesignSpecsEndMarker ++ body.drop (h + k))).length =
              body.length + 1 + getDesignSpecsEndMarker.length := by
            simp
            omega
          rw [jsSubstring_zero _ e (by rw [hWlen]; omega),
            jsSubstringFrom_nat _ e (by rw [hWlen]; omega)]
        | none =>
          simp only [hk]
    | none =>
      have hje : jsIndexOf body getDesignSpecsEndMarker = -1 := by
        simp [jsIndexOf, hfe]
      simp only [hje]
      have hnc : ¬ ((-1 : Int) > ((h : Nat) : Int)) := by omega
      rw [if_neg hnc]
      rw [jsSubstringFrom_nat body h hhlen]
      cases hk : findSub nextSectionPat (body.drop h) with
      | some k =>
        simp only [hk]
        have hcast : ((h : Nat) : Int) + ((k : Nat) : Int) = (((h + k : Nat)) : Int) := by
          push_cast
          ring
        rw [hcast]
        have hkb : k ≤ body.length - h := by
          simpa using findSub_le_length _ _ _ hk
        have hhk : h + k ≤ body.length := by omega
        rw [jsSubstring_zero body (h + k) hhk, jsSubstringFrom_nat body (h + k) hhk]
        have hW := findSub_withEm_none body h k hh hfe hk
        have hjeW : jsIndexOf (body.take (h + k) ++ '\n' ::
            (getDesignSpecsEndMarker ++ body.drop (h + k)))
            getDesignSpecsEndMarker = ((h + k + 1 : Nat) : Int) := by
          simp only [jsIndexOf, hW]
        simp only [List.cons_append, List.append_assoc]
        rw [hjeW]
        have hWlen : (body.take (h + k) ++ '\n' ::
            (getDesignSpecsEndMarker ++ body.drop (h + k))).length =
            body.length + 1 + getDesignSpecsEndMarker.length := by
          simp
          omega
        rw [jsSubstring_zero _ (h + k + 1) (by rw [hWlen]; omega),
          jsSubstringFrom_nat _ (h + k + 1) (by rw [hWlen]; omega)]
        have htake_len : (body.take (h + k)).length = h + k := by
          simp
          omega
        have e2 : body.take (h + k) ++ '\n' ::
            (getDesignSpecsEndMarker ++ body.drop (h + k)) =
            (body.take (h + k) ++ ['\n']) ++
              (getDesignSpecsEndMarker ++ body.drop (h + k)) := by simp
        rw [e2]
        rw [show h + k + 1 = (body.take (h + k) ++ ['\n']).length by simp [htake_len]]
        rw [takeAppendLen, dropAppendLen]
        simp
      | none =>
        simp only [hk]

/-- Witness for C3 (amended): the four-way policy instantiated at a concrete
document with an existing section whose end sentinel sits before the heading. -/
theorem C3_amended_witness :
    ("NEW".toList ≠ ([] : List Char)) ∧
    updateDesignSpecsSection bodyC3 "NEW".toList (analyzeDesignSpecsSection bodyC3) =
      amendedFourWayInsert bodyC3 "NEW".toList :=
  ⟨by decide, C3_amended_four_way bodyC3 "NEW".toList (by decide)⟩

theorem scanCaptureAfter_cons (pat : List Char) (allowed : Char → Bool)
    (c : Char) (rest : List Char) :
    scanCaptureAfter pat allowed (c :: rest) =
      if pat.isPrefixOf (c :: rest) then
        (let cap := List.takeWhile allowed (List.drop pat.length (c :: rest))
         if cap.isEmpty then scanCaptureAfter pat allowed rest else some cap)
      else scanCaptureAfter pat allowed rest := rfl

theorem scanCaptureAfter_skip (pat : List Char) (allowed : Char → Bool) :
    ∀ (xs rest : List Char),
    (∀ j, j < xs.length → pat.isPrefixOf (List.drop j xs ++ rest) = false) →
    scanCaptureAfter pat allowed (xs ++ rest) = scanCaptureAfter pat allowed rest := by
  intro xs
  induction xs with
  | nil => intro rest h; rfl
  | cons x xs ih =>
    intro rest h
    have h0 : pat.isPrefixOf (x :: (xs ++ rest)) = false := by
      have := h 0 (by simp)
      simpa using this
    rw [List.cons_append, scanCaptureAfter_cons, if_neg (by simp [h0])]
    exact ih rest (fun j hj => by
      have := h (j + 1) (by simp only [List.length_cons]; omega)
      simpa using this)

theorem scanCaptureAfter_hit (pat : List Char) (allowed : Char → Bool)
    (cap : List Char) (b : Char) (rest : List Char)
    (hpat : pat ≠ []) (hne : cap ≠ [])
    (hall : ∀ c ∈ cap, allowed c = true) (hb : allowed b = false) :
    scanCaptureAfter pat allowed (pat ++ (cap ++ b :: rest)) = some cap := by
  cases pat with
  | nil => exact absurd rfl hpat
  | cons pc pr =>
    rw [List.cons_append, scanCaptureAfter_cons]
    have hpre : (pc :: pr).isPrefixOf (pc :: (pr ++ (cap ++ b :: rest))) = true :=
      isPrefixOf_self_append (pc :: pr) (cap ++ b :: rest)
    rw [if_pos hpre]
    have hdrop : List.drop (pc :: pr).length (pc :: (pr ++ (cap ++ b :: rest))) =
        cap ++ b :: rest :=
      dropAppendLen (pc :: pr) (cap ++ b :: rest)
    have hcapE : cap.isEmpty = false := by
      cases cap with
      | nil => exact absurd rfl hne
      | cons a as => rfl
    simp only [hdrop, takeWhile_append_stop allowed cap b rest hall hb, hcapE]
    simp

theorem scanFileId_cons (c : Char) (rest : List Char) :
    scanFileId (c :: rest) =
      if designSegPat.isPrefixOf (c :: rest) then
        (let after := List.drop designSegPat.length (c :: rest)
         let cap := List.takeWhile (fun x => !(x = '/')) after
         if cap.isEmpty then scanFileId rest
         else if (List.drop cap.length after).head? = some '/' then some cap
         else scanFileId rest)
      else scanFileId rest := rfl

theorem scanFileId_skip : ∀ (xs rest : List Char),
    (∀ j, j < xs.length → designSegPat.isPrefixOf (List.drop j xs ++ rest) = false) →
    scanFileId (xs ++ rest) = scanFileId rest := by
  intro xs
  induction xs with
  | nil => intro rest h; rfl
  | cons x xs ih =>
    intro rest h
    have h0 : designSegPat.isPrefixOf (x :: (xs ++ rest)) = false := by
      have := h 0 (by simp)
      simpa using this
    rw [List.cons_append, scanFileId_cons, if_neg (by simp [h0])]
    exact ih rest (fun j hj => by
      have := h (j + 1) (by simp only [List.length_cons]; omega)
      simpa using this)

theorem scanFileId_hit (f rest : List Char) (hne : f ≠ []) (hslash : '/' ∉ f) :
    scanFileId (designSegPat ++ (f ++ '/' :: rest)) = some f := by
  rw [show designSegPat ++ (f ++ '/' :: rest) =
    '/' :: ("design/".toList ++ (f ++ '/' :: rest)) from rfl]
  rw [scanFileId_cons]
  have hpre : designSegPat.isPrefixOf ('/' :: ("design/".toList ++ (f ++ '/' :: rest))) = true :=
    isPrefixOf_self_append designSegPat (f ++ '/' :: rest)
  rw [if_pos hpre]
  have hdrop : List.drop designSegPat.length ('/' :: ("design/".toList ++ (f ++ '/' :: rest))) =
      f ++ '/' :: rest :=
    dropAppendLen designSegPat (f ++ '/' :: rest)
  have hall : ∀ c ∈ f, (fun x => !(x = '/')) c = true := by
    intro c hc
    simp only [Bool.not_eq_true']
    exact decide_eq_false (fun he => hslash (he ▸ hc))
  have hstop : (fun x => !(x = '/')) '/' = false := by decide
  have hcapE : f.isEmpty = false := by
    cases f with
    | nil => exact absurd rfl hne
    | cons a as => rfl
  have hdrop2 : List.drop f.length (f ++ '/' :: rest) = '/' :: rest :=
    dropAppendLen f ('/' :: rest)
  simp only [hdrop, takeWhile_append_stop _ f '/' rest hall hstop, hcapE, hdrop2]
  simp

theorem noPrefixAcross (pat xs : List Char) (sep : Char) (hsep : sep ∉ pat)
    (hc : containsSubB pat xs = false) :
    ∀ (rest : List Char) (j : Nat), j < xs.length →
      pat.isPrefixOf (List.drop j xs ++ sep :: rest) = false := by
  intro rest j _
  by_contra hcon
  have hp : pat.isPrefixOf (List.drop j xs ++ sep :: rest) = true := by
    cases hb : pat.isPrefixOf (List.drop j xs ++ sep :: rest) with
    | false => exact absurd hb hcon
    | true => rfl
  by_cases hlen : pat.length ≤ (List.drop j xs).length
  · rw [isPrefixOf_append_of_le pat (List.drop j xs) (sep :: rest) hlen] at hp
    rw [containsSubB_false_forall pat xs hc j] at hp
    exact Bool.noConfusion hp
  · push_neg at hlen
    have h1 : (List.drop j xs ++ sep :: rest).getD (List.drop j xs).length ' ' =
        pat.getD (List.drop j xs).length ' ' :=
      isPrefixOf_getD pat _ (List.drop j xs).length ' ' hp (by omega)
    have h2 : (List.drop j xs ++ sep :: rest).getD (List.drop j xs).length ' ' = sep := by
      have := getD_append_len (List.drop j xs) (sep :: rest) ' '
      simpa using this
    have h3 : pat.getD (List.drop j xs).length ' ' ∈ pat :=
      getD_mem pat (List.drop j xs).length ' ' (by omega)
    rw [← h1, h2] at h3
    exact hsep h3

/-- Claim C10 (amended): the construction/parsing round-trip holds under the
stated character conditions *strengthened* by substring-freedom conditions:
besides the original requirements (fileId non-empty and free of `/`, `?`,
`)` and whitespace; nodeId of the form `prefix:suffix` with a hyphen-free
and colon-free prefix and both parts free of `&`, `)` and whitespace;
versionId non-empty and free of `&`, `)` and whitespace), the fileId must
not contain `node-id=` or `version-id=` as substrings and the dash form of
the nodeId must not contain `version-id=`; then
`parseFigmaUrl (createCleanFigmaUrl fileId nodeId versionId)` returns
exactly the original triple. -/
theorem C10_amended_round_trip
    (f p s v : List Char)
    (hf_ne : f ≠ []) (hf_slash : '/' ∉ f) (hf_q : '?' ∉ f) (hf_par : ')' ∉ f)
    (hf_ws : ∀ c ∈ f, isJsWhitespace c = false)
    (hf_node : containsSubB nodeIdPat f = false)
    (hf_ver : containsSubB versionIdPat f = false)
    (hp_dash : '-' ∉ p) (hp_colon : ':' ∉ p)
    (hpa : ∀ c ∈ p, nodeAllowed c = true)
    (hsa : ∀ c ∈ s, nodeAllowed c = true)
    (hd_ver : containsSubB versionIdPat (p ++ '-' :: s) = false)
    (hv_ne : v ≠ []) (hva : ∀ c ∈ v, nodeAllowed c = true) :
    parseFigmaUrl (createCleanFigmaUrl f (p ++ ':' :: s) v) =
      some ⟨f, p ++ ':' :: s, some v⟩ := by
  have hdash : jsReplaceFirst (p ++ ':' :: s) [':'] ['-'] = p ++ '-' :: s :=
    jsReplaceFirst_single ':' '-' p s hp_colon
  have hrep : jsReplaceFirst (p ++ '-' :: s) ['-'] [':'] = p ++ ':' :: s :=
    jsReplaceFirst_single '-' ':' p s hp_dash
  have hd_ne : p ++ '-' :: s ≠ [] := by simp
  have hd_allowed : ∀ c ∈ p ++ '-' :: s, nodeAllowed c = true := by
    intro c hc
    rcases List.mem_append.mp hc with h | h
    · exact hpa c h
    · rcases List.mem_cons.mp h with h | h
      · rw [h]
        decide
      · exact hsa c h
  have hU : createCleanFigmaUrl f (p ++ ':' :: s) v =
      figmaUrlPrefix ++ (f ++ ("/?node-id=".toList ++ ((p ++ '-' :: s) ++
        ("&version-id=".toList ++ (v ++ "&m=dev".toList))))) := by
    simp only [createCleanFigmaUrl]
    rw [hdash]
    simp only [List.append_assoc]
  have hA : scanFileId (createCleanFigmaUrl f (p ++ ':' :: s) v) = some f := by
    rw [hU]
    show scanFileId ("https://www.figma.com".toList ++ (designSegPat ++ (f ++ '/' ::
      ("?node-id=".toList ++ ((p ++ '-' :: s) ++
        ("&version-id=".toList ++ (v ++ "&m=dev".toList))))))) = some f
    rw [scanFileId_skip "https://www.figma.com".toList
      (designSegPat ++ (f ++ '/' :: ("?node-id=".toList ++ ((p ++ '-' :: s) ++
        ("&version-id=".toList ++ (v ++ "&m=dev".toList))))))
      (fun j hj => noPrefixWithinB_sound designSegPat "https://www.figma.com".toList
        (by decide) _ j hj)]
    exact scanFileId_hit f _ hf_ne hf_slash
  have hB : scanCaptureAfter nodeIdPat nodeAllowed
      (createCleanFigmaUrl f (p ++ ':' :: s) v) = some (p ++ '-' :: s) := by
    rw [hU]
    rw [scanCaptureAfter_skip nodeIdPat nodeAllowed figmaUrlPrefix
      (f ++ ("/?node-id=".toList ++ ((p ++ '-' :: s) ++
        ("&version-id=".toList ++ (v ++ "&m=dev".toList)))))
      (fun j hj => noPrefixWithinB_sound nodeIdPat figmaUrlPrefix (by decide) _ j hj)]
    show scanCaptureAfter nodeIdPat nodeAllowed (f ++ '/' ::
      ("?node-id=".toList ++ ((p ++ '-' :: s) ++
        ("&version-id=".toList ++ (v ++ "&m=dev".toList))))) = some (p ++ '-' :: s)
    rw [scanCaptureAfter_skip nodeIdPat nodeAllowed f
      ('/' :: ("?node-id=".toList ++ ((p ++ '-' :: s) ++
        ("&version-id=".toList ++ (v ++ "&m=dev".toList)))))
      (fun j hj => noPrefixAcross nodeIdPat f '/' (by decide) hf_node _ j hj)]
    show scanCaptureAfter nodeIdPat nodeAllowed ("/?".toList ++ (nodeIdPat ++
      ((p ++ '-' :: s) ++ ("&version-id=".toList ++ (v ++ "&m=dev".toList))))) =
      some (p ++ '-' :: s)
    rw [scanCaptureAfter_skip nodeIdPat nodeAllowed "/?".toList
      (nodeIdPat ++ ((p ++ '-' :: s) ++ ("&version-id=".toList ++ (v ++ "&m=dev".toList))))
      (fun j hj => noPrefixWithinB_sound nodeIdPat "/?".toList (by decide) _ j hj)]
    show scanCaptureAfter nodeIdPat nodeAllowed (nodeIdPat ++ ((p ++ '-' :: s) ++
      '&' :: (versionIdPat ++ (v ++ "&m=dev".toList)))) = some (p ++ '-' :: s)
    exact scanCaptureAfter_hit nodeIdPat nodeAllowed (p ++ '-' :: s) '&'
      (versionIdPat ++ (v ++ "&m=dev".toList)) (by decide) hd_ne hd_allowed (by decide)
  have hC : scanCaptureAfter versionIdPat nodeAllowed
      (createCleanFigmaUrl f (p ++ ':' :: s) v) = some v := by
    rw [hU]
    rw [scanCaptureAfter_skip versionIdPat nodeAllowed figmaUrlPrefix
      (f ++ ("/?node-id=".toList ++ ((p ++ '-' :: s) ++
        ("&version-id=".toList ++ (v ++ "&m=dev".toList)))))
      (fun j hj => noPrefixWithinB_sound versionIdPat figmaUrlPrefix (by decide) _ j hj)]
    show scanCaptureAfter versionIdPat nodeAllowed (f ++ '/' ::
      ("?node-id=".toList ++ ((p ++ '-' :: s) ++
        ("&version-id=".toList ++ (v ++ "&m=dev".toList))))) = some v
    rw [scanCaptureAfter_skip versionIdPat nodeAllowed f
      ('/' :: ("?node-id=".toList ++ ((p ++ '-' :: s) ++
        ("&version-id=".toList ++ (v ++ "&m=dev".toList)))))
      (fun j hj => noPrefixAcross versionIdPat f '/' (by decide) hf_ver _ j hj)]
    show scanCaptureAfter versionIdPat nodeAllowed ("/?node-id=".toList ++
      ((p ++ '-' :: s) ++ ("&version-id=".toList ++ (v ++ "&m=dev".toList)))) = some v
    rw [scanCaptureAfter_skip versionIdPat nodeAllowed "/?node-id=".toList
      ((p ++ '-' :: s) ++ ("&version-id=".toList ++ (v ++ "&m=dev".toList)))
      (fun j hj => noPrefixWithinB_sound versionIdPat "/?node-id=".toList (by decide) _ j hj)]
    rw [scanCaptureAfter_skip versionIdPat nodeAllowed (p ++ '-' :: s)
      ("&version-id=".toList ++ (v ++ "&m=dev".toList))
      (fun j hj => noPrefixAcross versionIdPat (p ++ '-' :: s) '&' (by decide) hd_ver _ j hj)]
    show scanCaptureAfter versionIdPat nodeAllowed (['&'] ++ (versionIdPat ++
      (v ++ '&' :: "m=dev".toList))) = some v
    rw [scanCaptureAfter_skip versionIdPat nodeAllowed ['&']
      (versionIdPat ++ (v ++ '&' :: "m=dev".toList))
      (fun j hj => noPrefixWithinB_sound versionIdPat ['&'] (by decide) _ j hj)]
    exact scanCaptureAfter_hit versionIdPat nodeAllowed v '&' "m=dev".toList
      (by decide) hv_ne hva (by decide)
  simp only [parseFigmaUrl, hA, hB, hC, hrep]

/-- Witness for C10 (amended): the round-trip at a concrete triple
satisfying every hypothesis. -/
theorem C10_amended_witness :
    parseFigmaUrl (createCleanFigmaUrl "F7".toList ("12:3-4".toList) "987".toList) =
      some ⟨"F7".toList, "12:3-4".toList, some "987".toList⟩ :=
  C10_amended_round_trip "F7".toList "12".toList "3-4".toList "987".toList
    (by decide) (by decide) (by decide) (by decide) (by decide) (by decide)
    (by decide) (by decide) (by decide) (by decide) (by decide) (by decide)
    (by decide) (by decide)
